import Mathlib

/-!
Verification of the GentleOmega hash-chained ledger and chain-reconciliation
subsystem (`app/blockchain_client.py`, `app/chain_orchestrator.py`,
`blockchain_chain_repair.py`), as a shallow embedding in Lean.

Conventions of the embedding:

* Python strings are `List Char` (`Str`); Python byte strings are `List Nat`
  with each element below 256.
* `hashlib.sha256(...).hexdigest()` is embedded as a full executable SHA-256
  over byte lists (`sha256Hex`).
* Python values fed to `json.dumps(..., sort_keys=True)` are embedded as the
  inductive `Json`.  A Python dict is represented with its fields listed in
  sorted key order (`json.dumps(sort_keys=True)` makes any other order
  unobservable); `serJson` reproduces the `json.dumps` output with its default
  separators and `ensure_ascii=True` escaping.
* Database effects are injected explicitly: the ledger and cache tables are a
  `DB` value, `now()` / `datetime.now` timestamps and RPC outcomes are
  parameters, and a fallible operation takes a flag or oracle telling whether
  the underlying I/O succeeds.  A caught Python exception is a `none` / error
  branch of the corresponding oracle.
-/

namespace GentleOmega

/-- Python `str`, as a list of characters. -/
abbrev Str := List Char

/-! ## SHA-256 (`hashlib.sha256`) -/

/-- 2^32, the modulus of 32-bit words. -/
def M32 : Nat := 4294967296

/-- Right rotation of a 32-bit word by `n` bits (`n < 32`). -/
def ror32 (x n : Nat) : Nat := ((x >>> n) ||| (x <<< (32 - n))) % M32

def shaCh (e f g : Nat) : Nat := (e &&& f) ^^^ ((e ^^^ 4294967295) &&& g)

def shaMaj (a b c : Nat) : Nat := (a &&& b) ^^^ ((a &&& c) ^^^ (b &&& c))

def bigSigma0 (a : Nat) : Nat := ror32 a 2 ^^^ ror32 a 13 ^^^ ror32 a 22

def bigSigma1 (e : Nat) : Nat := ror32 e 6 ^^^ ror32 e 11 ^^^ ror32 e 25

def smallSigma0 (x : Nat) : Nat := ror32 x 7 ^^^ ror32 x 18 ^^^ (x >>> 3)

def smallSigma1 (x : Nat) : Nat := ror32 x 17 ^^^ ror32 x 19 ^^^ (x >>> 10)

/-- The 64 SHA-256 round constants. -/
def shaK : List Nat :=
  [1116352408, 1899447441, 3049323471, 3921009573, 961987163, 1508970993, 2453635748, 2870763221,
   3624381080, 310598401, 607225278, 1426881987, 1925078388, 2162078206, 2614888103, 3248222580,
   3835390401, 4022224774, 264347078, 604807628, 770255983, 1249150122, 1555081692, 1996064986,
   2554220882, 2821834349, 2952996808, 3210313671, 3336571891, 3584528711, 113926993, 338241895,
   666307205, 773529912, 1294757372, 1396182291, 1695183700, 1986661051, 2177026350, 2456956037,
   2730485921, 2820302411, 3259730800, 3345764771, 3516065817, 3600352804, 4094571909, 275423344,
   430227734, 506948616, 659060556, 883997877, 958139571, 1322822218, 1537002063, 1747873779,
   1955562222, 2024104815, 2227730452, 2361852424, 2428436474, 2756734187, 3204031479, 3329325298]

/-- The initial SHA-256 state. -/
def shaH0 : List Nat :=
  [1779033703, 3144134277, 1013904242, 2773480762, 1359893119, 2600822924, 528734635, 1541459225]

/-- Big-endian 8-byte encoding of a natural number (below 2^64). -/
def be64 (n : Nat) : List Nat :=
  [(n >>> 56) % 256, (n >>> 48) % 256, (n >>> 40) % 256, (n >>> 32) % 256,
   (n >>> 24) % 256, (n >>> 16) % 256, (n >>> 8) % 256, n % 256]

/-- SHA-256 message padding: append `0x80`, zeros until the length is
56 mod 64, then the bit length as a big-endian 64-bit integer. -/
def shaPad (msg : List Nat) : List Nat :=
  msg ++ 128 :: List.replicate ((119 - msg.length % 64) % 64) 0 ++ be64 (8 * msg.length)

/-- Group bytes into big-endian 32-bit words. -/
def bytesToWords : List Nat → List Nat
  | a :: b :: c :: d :: rest => (a * 16777216 + b * 65536 + c * 256 + d) :: bytesToWords rest
  | _ => []

/-- Group a word list into 16-word blocks (a padded message is always a whole
number of blocks, so the catch-all for a ragged tail is never exercised). -/
def toBlocks : List Nat → List (List Nat)
  | w0 :: w1 :: w2 :: w3 :: w4 :: w5 :: w6 :: w7 ::
    w8 :: w9 :: w10 :: w11 :: w12 :: w13 :: w14 :: w15 :: rest =>
      [w0, w1, w2, w3, w4, w5, w6, w7, w8, w9, w10, w11, w12, w13, w14, w15] :: toBlocks rest
  | _ => []

/-- Extend the reversed message schedule by `k` further words. -/
def shaExtend : List Nat → Nat → List Nat
  | acc, 0 => acc
  | acc, k + 1 =>
      shaExtend (((smallSigma1 (acc.getD 1 0) + acc.getD 6 0 +
        smallSigma0 (acc.getD 14 0) + acc.getD 15 0) % M32) :: acc) k

/-- The 64-word message schedule of a 16-word block. -/
def shaSchedule (ws : List Nat) : List Nat := (shaExtend ws.reverse 48).reverse

/-- One SHA-256 round: `st` is the pair of round constant and schedule word. -/
def shaRound (st : Nat × Nat) (abc : List Nat) : List Nat :=
  match abc with
  | [a, b, c, d, e, f, g, h] =>
      let t1 := (h + bigSigma1 e + shaCh e f g + st.1 + st.2) % M32
      let t2 := (bigSigma0 a + shaMaj a b c) % M32
      [(t1 + t2) % M32, a, b, c, (d + t1) % M32, e, f, g]
  | other => other

/-- Compress one 16-word block into the running state. -/
def shaBlock (h : List Nat) (blk : List Nat) : List Nat :=
  let final := (List.zip shaK (shaSchedule blk)).foldl (fun st kw => shaRound kw st) h
  (List.zip h final).map (fun p => (p.1 + p.2) % M32)

/-- SHA-256 of a byte list, as eight 32-bit words. -/
def sha256Words (msg : List Nat) : List Nat :=
  (toBlocks (bytesToWords (shaPad msg))).foldl shaBlock shaH0

/-- Lowercase hexadecimal digit of a value below 16. -/
def hexDigit (n : Nat) : Char :=
  if n < 10 then Char.ofNat (48 + n) else Char.ofNat (87 + n)

/-- Lowercase hex of a 32-bit word, 8 digits. -/
def wordHex (w : Nat) : List Char :=
  [hexDigit ((w >>> 28) % 16), hexDigit ((w >>> 24) % 16), hexDigit ((w >>> 20) % 16),
   hexDigit ((w >>> 16) % 16), hexDigit ((w >>> 12) % 16), hexDigit ((w >>> 8) % 16),
   hexDigit ((w >>> 4) % 16), hexDigit (w % 16)]

/-- `hashlib.sha256(msg).hexdigest()`: the lowercase hex digest of a byte
string, 64 characters. -/
def sha256Hex (msg : List Nat) : Str :=
  (sha256Words msg).foldr (fun w acc => wordHex w ++ acc) []

/-- UTF-8 encoding of one character (`str.encode()`). -/
def utf8Char (c : Char) : List Nat :=
  let n := c.toNat
  if n < 128 then [n]
  else if n < 2048 then [192 + n / 64, 128 + n % 64]
  else if n < 65536 then [224 + n / 4096, 128 + n / 64 % 64, 128 + n % 64]
  else [240 + n / 262144, 128 + n / 4096 % 64, 128 + n / 64 % 64, 128 + n % 64]

/-- UTF-8 encoding of a string (`str.encode()`).  Every string this
development hashes is ASCII (the serializer escapes everything else), but the
encoder is total regardless. -/
def utf8 : Str → List Nat
  | [] => []
  | c :: cs => utf8Char c ++ utf8 cs

/-! ## JSON values and `json.dumps(..., sort_keys=True)`

A Python value passed to `json.dumps` is embedded as `Json`.  A dict is an
`obj` whose fields are listed in ascending key order — with `sort_keys=True`
the serializer sorts keys, so the sorted field list is a faithful
representation of the dict; numbers are restricted to integers (the payloads
the ledger stores carry strings, integers, booleans, lists and dicts). -/

inductive Json where
  | null
  | bool (b : Bool)
  | num (n : Int)
  | str (s : Str)
  | arr (items : List Json)
  | obj (fields : List (Str × Json))

/-- The opening brace character. -/
def lbrace : Char := Char.ofNat 123

/-- The closing brace character. -/
def rbrace : Char := Char.ofNat 125

/-- Lowercase 4-digit hex, as in Python's `'\\u%04x' % n`. -/
def hex4 (n : Nat) : List Char :=
  [hexDigit (n / 4096 % 16), hexDigit (n / 256 % 16), hexDigit (n / 16 % 16), hexDigit (n % 16)]

/-- How `json.dumps` with `ensure_ascii=True` renders one character of a
string: `"` and `\` and the named control characters get two-character
escapes, other printable ASCII is literal, everything else becomes `\uXXXX`
(astral characters as a surrogate pair). -/
def escChar (c : Char) : List Char :=
  if c = '"' then ['\\', '"']
  else if c = '\\' then ['\\', '\\']
  else if c.toNat = 8 then ['\\', 'b']
  else if c.toNat = 9 then ['\\', 't']
  else if c.toNat = 10 then ['\\', 'n']
  else if c.toNat = 12 then ['\\', 'f']
  else if c.toNat = 13 then ['\\', 'r']
  else if 32 ≤ c.toNat ∧ c.toNat ≤ 126 then [c]
  else if c.toNat < 65536 then '\\' :: 'u' :: hex4 c.toNat
  else '\\' :: 'u' :: hex4 (55296 + (c.toNat - 65536) / 1024) ++
       '\\' :: 'u' :: hex4 (56320 + (c.toNat - 65536) % 1024)

/-- Escape a whole string (the part of `json.dumps` between the quotes). -/
def escStr : Str → List Char
  | [] => []
  | c :: cs => escChar c ++ escStr cs

/-- Decimal digits of `n`, most significant first (`fuel ≥ n` suffices). -/
def natDigitsAux : Nat → Nat → List Char
  | 0, _ => []
  | fuel + 1, n => if n = 0 then [] else natDigitsAux fuel (n / 10) ++ [Char.ofNat (48 + n % 10)]

/-- Decimal rendering of a natural number, as `str` / `json.dumps` print it. -/
def natDigits (n : Nat) : List Char := if n = 0 then ['0'] else natDigitsAux n n

/-- Decimal rendering of an integer, as `json.dumps` prints an `int`. -/
def serInt (i : Int) : List Char :=
  if i < 0 then '-' :: natDigits i.natAbs else natDigits i.toNat

/-- The serialized keyword literals. -/
def litNull : List Char := 'n' :: 'u' :: 'l' :: 'l' :: []

def litTrue : List Char := 't' :: 'r' :: 'u' :: 'e' :: []

def litFalse : List Char := 'f' :: 'a' :: 'l' :: 's' :: 'e' :: []

mutual

/-- `json.dumps(v, sort_keys=True)` with the default separators `', '` and
`': '`: an `obj`'s fields are serialized in their list order, which by the
representation convention is sorted key order. -/
def serJson : Json → List Char
  | .null => litNull
  | .bool true => litTrue
  | .bool false => litFalse
  | .num i => serInt i
  | .str s => '"' :: escStr s ++ ['"']
  | .arr [] => ['[', ']']
  | .arr (x :: xs) => '[' :: (serJson x ++ serTail xs ++ [']'])
  | .obj [] => [lbrace, rbrace]
  | .obj (f :: fs) =>
      lbrace :: ('"' :: escStr f.1 ++ '"' :: ':' :: ' ' :: serJson f.2 ++ serFields fs ++ [rbrace])

/-- Remaining array elements, each preceded by `', '`. -/
def serTail : List Json → List Char
  | [] => []
  | x :: xs => ',' :: ' ' :: serJson x ++ serTail xs

/-- Remaining object fields, each preceded by `', '`. -/
def serFields : List (Str × Json) → List Char
  | [] => []
  | f :: fs => ',' :: ' ' :: '"' :: escStr f.1 ++ '"' :: ':' :: ' ' :: serJson f.2 ++ serFields fs

end

/-! ## The hash functions of `BlockchainClient` -/

namespace BlockchainClient

/-- `BlockchainClient._generate_pod_hash`:
`sha256(json.dumps(data, sort_keys=True).encode()).hexdigest()`. -/
def generate_pod_hash (data : List (Str × Json)) : Str :=
  sha256Hex (utf8 (serJson (.obj data)))

/-- `BlockchainClient._generate_poe_hash`:
sha256 of `f"{pod_hash}:{json.dumps(result, sort_keys=True)}"`. -/
def generate_poe_hash (pod_hash : Str) (result : List (Str × Json)) : Str :=
  sha256Hex (utf8 (pod_hash ++ ':' :: serJson (.obj result)))

/-- The serialized chain content of `_compute_chain_hash`: the dict
`{"data": data, "previous_hash": previous_hash, "timestamp": timestamp}`
(keys already in sorted order) rendered by `json.dumps(..., sort_keys=True)`.
`timestamp` is kept as a full `Json` value because `verify_chain_integrity`
passes whatever value it popped out of the stored block data. -/
def chain_content (data : Json) (previous_hash : Option Str) (timestamp : Json) : List Char :=
  serJson (.obj [("data".data, data),
                 ("previous_hash".data, match previous_hash with | none => .null | some s => .str s),
                 ("timestamp".data, timestamp)])

/-- `BlockchainClient._compute_chain_hash` with an explicit timestamp (the
`timestamp is None` branch draws a fresh `datetime.now` value; every caller
in this development resolves that effect and passes the value used). -/
def compute_chain_hash (data : Json) (previous_hash : Option Str) (timestamp : Json) : Str :=
  sha256Hex (utf8 (chain_content data previous_hash timestamp))

end BlockchainClient

/-! ## The ledger and cache tables

One `Row` models one `blockchain_ledger` row, with the columns the source
reads or writes (`updated_at` is set by the SQL but never read, and is left
out).  Columns are nullable exactly as the two writers leave them:
`add_to_ledger` fills the hash-chain columns and leaves `poe_hash` null,
`chain_orchestrator.SQL_INSERT_LEDGER` fills only `poe_hash` and `status`.
`status` defaults to `queued` (spec §6 table default).  `created_at` is a
logical timestamp: the model draws `id` and `created_at` from counters that
grow with every insert, embedding that `id` is serial and `now()` is
monotone. -/

structure Row where
  id : Nat
  hash : Option Str := none
  previous_hash : Option Str := none
  block_data : Option Json := none
  content_type : Option Str := none
  user_id : Option Json := none
  status : Str := "queued".data
  tx_hash : Option Str := none
  block_number : Option Int := none
  poe_hash : Option Str := none
  created_at : Nat

/-- One `pods_poe` cache row (`poe_hash` is its unique key). -/
structure CacheRow where
  poe_hash : Str
  pod_hash : Str
  content_type : Str
  execution_data : Json
  on_chain : Bool
  created_at : Nat

/-- The persistent state: the two tables plus the id/clock counters. -/
structure DB where
  rows : List Row := []
  cache : List CacheRow := []
  nextId : Nat := 1
  clock : Nat := 0

/-- The empty database (`SERIAL` ids start at 1). -/
def emptyDB : DB := {}

/-- Strict lexicographic order on a two-component sort key. -/
def keyLt (a b : Nat × Nat) : Bool := a.1 < b.1 || (a.1 = b.1 && a.2 < b.2)

/-- Insert into a list sorted by `key`, after any equal keys (stable). -/
def insertByKey (key : α → Nat × Nat) (x : α) : List α → List α
  | [] => [x]
  | y :: ys => if keyLt (key y) (key x) then y :: insertByKey key x ys else x :: y :: ys

/-- Stable insertion sort by `key`: the model of SQL `ORDER BY`. -/
def sortByKey (key : α → Nat × Nat) : List α → List α
  | [] => []
  | x :: xs => insertByKey key x (sortByKey key xs)

/-- The `ORDER BY created_at, id` sort key of a ledger row. -/
def rowKey (r : Row) : Nat × Nat := (r.created_at, r.id)

/-- The `ORDER BY id` sort key of a ledger row. -/
def idKey (r : Row) : Nat × Nat := (r.id, 0)

/-- The `ORDER BY created_at` sort key of a cache row. -/
def cacheKey (c : CacheRow) : Nat × Nat := (c.created_at, 0)

/-- `UPDATE ... WHERE id = i`: apply `f` to every row whose id is `i`. -/
def updateById (i : Nat) (f : Row → Row) (rows : List Row) : List Row :=
  rows.map (fun r => if r.id = i then f r else r)

/-! ## Dict primitives

`setField` is `{**d, k: v}` on the sorted-field representation: it replaces
the value if the key is present and otherwise inserts at the sorted position
(for a canonically sorted input the result is again sorted, matching what
`json.dumps(sort_keys=True)` shows of the updated dict).  `removeField` is
`d.pop(k, ...)`'s effect and `lookupField` is `d.get(k)`. -/

def strLtB : Str → Str → Bool
  | [], [] => false
  | [], _ :: _ => true
  | _ :: _, [] => false
  | c :: cs, d :: ds => c.toNat < d.toNat || (c = d && strLtB cs ds)

def removeField (k : Str) : List (Str × Json) → List (Str × Json)
  | [] => []
  | f :: fs => if f.1 = k then removeField k fs else f :: removeField k fs

def setField (k : Str) (v : Json) : List (Str × Json) → List (Str × Json)
  | [] => [(k, v)]
  | f :: fs => if strLtB k f.1 then (k, v) :: f :: fs
               else if f.1 = k then (k, v) :: removeField k fs
               else f :: setField k v fs

def lookupField (k : Str) : List (Str × Json) → Option Json
  | [] => none
  | f :: fs => if f.1 = k then some f.2 else lookupField k fs

namespace BlockchainClient

/-- The key `add_to_ledger` plants in the stored payload. -/
def hash_timestamp_key : Str := "_hash_timestamp".data

/-- The configured wallet address (`WALLET_ADDRESS` env, default sentinel). -/
def wallet_address : Str := "your_wallet_address".data

/-- `BlockchainClient.get_last_ledger_hash`:
`SELECT hash FROM blockchain_ledger ORDER BY created_at DESC, id DESC LIMIT 1`,
and `None` both for an empty ledger and when the read raises (the method
catches every exception and returns `None`); `read_fails` injects the latter. -/
def get_last_ledger_hash (db : DB) (read_fails : Bool) : Option Str :=
  if read_fails then none
  else match (sortByKey rowKey db.rows).getLast? with
       | none => none
       | some r => r.hash

/-- Result dict of `add_to_ledger`: the success shape carries
`ledger_id`/`hash`/`previous_hash`/`created_at` (plus `status: "success"` and
`chain_verified: True`), the failure shape carries `status: "error"` and the
exception text. -/
inductive AddResult where
  | ok (ledger_id : Nat) (hash : Str) (previous_hash : Option Str) (created_at : Nat)
  | err (error : Str)

/-- The `status` field of an `add_to_ledger` result dict. -/
def AddResult.status : AddResult → Str
  | .ok _ _ _ _ => "success".data
  | .err _ => "error".data

/-- `BlockchainClient.add_to_ledger`.  `ts` is the `datetime.now(timezone.utc)
.isoformat()` stamp; `read_fails` makes the embedded `get_last_ledger_hash`
read raise (swallowed there into `None`); `insert_fails` makes the `INSERT`
raise, which the enclosing `try` turns into the error-shaped result with the
database unchanged.  On success the stored `block_data` is
`{**data, "_hash_timestamp": ts}` while the hash is computed over `data`
alone. -/
def add_to_ledger (db : DB) (data : List (Str × Json)) (content_type : Str)
    (user_id : Option Json) (ts : Str) (read_fails insert_fails : Bool) : AddResult × DB :=
  let previous_hash := get_last_ledger_hash db read_fails
  let enhanced_data := setField hash_timestamp_key (.str ts) data
  let entry_hash := compute_chain_hash (.obj data) previous_hash (.str ts)
  if insert_fails then (.err "insert failed".data, db)
  else
    (.ok db.nextId entry_hash previous_hash db.clock,
     {db with
        rows := db.rows ++ [{id := db.nextId, hash := some entry_hash, previous_hash,
                             block_data := some (.obj enhanced_data),
                             content_type := some content_type, user_id,
                             created_at := db.clock}],
        nextId := db.nextId + 1, clock := db.clock + 1})

/-- Result dict of `verify_chain_integrity`: exactly the keys the source puts
in each return — absent keys are `none`. -/
structure VerifyResult where
  status : Str
  message : Option Str := none
  error : Option Str := none
  entries : Option Nat := none
  verified : Option Nat := none
  broken_links : Option (List Str) := none
  integrity : Option Str := none

/-- Python rendering of a nullable string in an f-string. -/
def showOptStr : Option Str → Str
  | none => "None".data
  | some s => s

def genesis_msg (i : Nat) : Str :=
  "Genesis block ".data ++ natDigits i ++ " has unexpected previous_hash".data

def link_msg (i : Nat) (expected actual : Option Str) : Str :=
  "Block ".data ++ natDigits i ++ " previous_hash mismatch: expected ".data ++
    showOptStr expected ++ ", got ".data ++ showOptStr actual

def hash_fail_msg (i : Nat) : Str :=
  "Block ".data ++ natDigits i ++ " hash verification failed".data

/-- The `hash computation error` message.  The source appends the Python
exception text (`f"... error: {e}"`); the model keeps the fixed prefix that
identifies the entry. -/
def hash_err_msg (i : Nat) : Str :=
  "Block ".data ++ natDigits i ++ " hash computation error".data

/-- The per-entry hash re-check of `verify_chain_integrity`: pop
`_hash_timestamp` out of the parsed block data, recompute the chain hash with
the remaining fields, the row's stored `previous_hash` and the popped
timestamp, and compare.  A missing key or a stored JSON `null` make the pop
yield Python `None`, so `_compute_chain_hash` stamps a fresh `now_ts`.  Block
data that is not a JSON object makes `.pop` raise, which the per-entry `try`
converts to the computation-error message. -/
def entry_hash_check (now_ts : Str) (r : Row) : Bool × List Str :=
  match r.block_data with
  | some (.obj parsed) =>
      let data_for_hash := removeField hash_timestamp_key parsed
      let tsv : Json :=
        match lookupField hash_timestamp_key parsed with
        | none => .str now_ts
        | some .null => .str now_ts
        | some v => v
      let computed := compute_chain_hash (.obj data_for_hash) r.previous_hash tsv
      if r.hash ≠ some computed then (false, [hash_fail_msg r.id]) else (true, [])
  | _ => (false, [hash_err_msg r.id])

/-- The verification loop over the `(created_at, id)`-ordered entries:
`prev` is the preceding entry (`none` at the genesis position).  Returns the
verified count and every accumulated broken-link message, in entry order,
each entry contributing its link violation then its hash violation. -/
def verify_loop (now_ts : Str) : Option Row → List Row → Nat × List Str
  | _, [] => (0, [])
  | prev, r :: rest =>
      let link_msgs :=
        match prev with
        | none => if r.previous_hash ≠ none then [genesis_msg r.id] else []
        | some p => if r.previous_hash ≠ p.hash then [link_msg r.id p.hash r.previous_hash] else []
      let hc := entry_hash_check now_ts r
      let rec_rest := verify_loop now_ts (some r) rest
      ((if hc.1 then 1 else 0) + rec_rest.1, link_msgs ++ hc.2 ++ rec_rest.2)

/-- `BlockchainClient.verify_chain_integrity`.  `now_ts` resolves the fresh
timestamp `_compute_chain_hash` would stamp for an entry whose stored
timestamp is missing; `read_fails` injects a database-level failure, which the
outer `except` turns into the error shape. -/
def verify_chain_integrity (db : DB) (now_ts : Str) (read_fails : Bool) : VerifyResult :=
  if read_fails then {status := "error".data, error := some "db error".data}
  else
    let entries := sortByKey rowKey db.rows
    if entries.isEmpty then
      {status := "success".data, message := some "Empty chain is valid".data, entries := some 0}
    else
      let res := verify_loop now_ts none entries
      {status := if res.2.isEmpty then "success".data else "error".data,
       entries := some entries.length,
       verified := some res.1,
       broken_links := some res.2,
       integrity := some (if res.2.isEmpty then "valid".data else "compromised".data)}

end BlockchainClient

namespace BlockchainClient

/-- Result dict of `record_pod` (the success shape; nothing in the body can
raise in the model — `add_to_ledger` returns its failures as a value and the
cache insert is wrapped in its own swallowed `try` — so the outer `except`
branch is dead code here). -/
structure PodResult where
  status : Str
  transaction_hash : Str
  pod_hash : Str
  timestamp : Str
  ledger : AddResult
  chain_pending : Bool

/-- `data.get("user_id", "system")`. -/
def user_id_of (data : List (Str × Json)) : Json :=
  match lookupField "user_id".data data with
  | some v => v
  | none => .str "system".data

/-- The PoD payload dict `record_pod` builds, fields in sorted key order. -/
def pod_payload (data : List (Str × Json)) (ts : Str) : List (Str × Json) :=
  [("data_hash".data, .str (generate_pod_hash data)),
   ("data_summary".data, .obj
      [("keys".data, .arr (data.map (fun f => .str f.1))),
       ("size".data, .num ((serJson (.obj data)).length : Int))]),
   ("original_data".data, .obj data),
   ("timestamp".data, .str ts),
   ("type".data, .str "POD".data),
   ("wallet_address".data, .str wallet_address)]

/-- `BlockchainClient.record_pod`.  `ts` is the stamped timestamp, `epoch` is
`int(time.time())`; the three flags inject failure of the last-hash read, the
ledger insert, and the cache insert (the last is caught and only logged).
Builds the PoD payload dict, appends it to the ledger, mirrors it into
`pods_poe` with `ON CONFLICT (poe_hash) DO NOTHING`, and returns the success
dict whatever the ledger result was. -/
def record_pod (db : DB) (data : List (Str × Json)) (ts : Str) (epoch : Nat)
    (read_fails insert_fails cache_fails : Bool) : PodResult × DB :=
  let pod_hash := generate_pod_hash data
  let lr := add_to_ledger db (pod_payload data ts) "pod".data (some (user_id_of data)) ts
    read_fails insert_fails
  let db2 :=
    if cache_fails then lr.2
    else if lr.2.cache.any (fun c => c.poe_hash = pod_hash) then lr.2
    else {lr.2 with
            cache := lr.2.cache ++ [{poe_hash := pod_hash, pod_hash := pod_hash,
                                     content_type := "pod".data, execution_data := .obj data,
                                     on_chain := false, created_at := lr.2.clock}],
            clock := lr.2.clock + 1}
  ({status := "success".data,
    transaction_hash := "pod_".data ++ pod_hash.take 16 ++ '_' :: natDigits epoch,
    pod_hash, timestamp := ts, ledger := lr.1, chain_pending := true}, db2)

/-- Result dict of `record_poe` (success shape, as for `record_pod`). -/
structure PoeResult where
  status : Str
  transaction_hash : Str
  pod_hash : Str
  poe_hash : Str
  timestamp : Str
  verification : Str
  ledger : AddResult
  chain_pending : Bool

/-- The PoE payload dict `record_poe` builds, fields in sorted key order. -/
def poe_payload (pod_hash : Str) (execution_result : List (Str × Json)) (ts : Str) :
    List (Str × Json) :=
  [("execution_result".data, .obj execution_result),
   ("execution_summary".data, .obj
      [("processing_time".data,
        (lookupField "processing_time".data execution_result).getD .null),
       ("result_size".data, .num ((serJson (.obj execution_result)).length : Int)),
       ("status".data, (lookupField "status".data execution_result).getD
          (.str "completed".data))]),
   ("pod_hash".data, .str pod_hash),
   ("poe_hash".data, .str (generate_poe_hash pod_hash execution_result)),
   ("timestamp".data, .str ts),
   ("type".data, .str "POE".data),
   ("wallet_address".data, .str wallet_address)]

/-- `BlockchainClient.record_poe`: builds the PoE payload dict, appends it to
the ledger, and upserts the cache row (`ON CONFLICT (poe_hash) DO UPDATE SET
execution_data = EXCLUDED.execution_data` — `on_chain` is not reset). -/
def record_poe (db : DB) (pod_hash : Str) (execution_result : List (Str × Json))
    (ts : Str) (epoch : Nat) (read_fails insert_fails cache_fails : Bool) : PoeResult × DB :=
  let poe_hash := generate_poe_hash pod_hash execution_result
  let lr := add_to_ledger db (poe_payload pod_hash execution_result ts) "poe".data
    (some (user_id_of execution_result)) ts read_fails insert_fails
  let db2 :=
    if cache_fails then lr.2
    else if lr.2.cache.any (fun c => c.poe_hash = poe_hash) then
      {lr.2 with cache := lr.2.cache.map (fun c =>
        if c.poe_hash = poe_hash then {c with execution_data := .obj execution_result} else c)}
    else {lr.2 with
            cache := lr.2.cache ++ [{poe_hash, pod_hash,
                                     content_type := "poe".data,
                                     execution_data := .obj execution_result,
                                     on_chain := false, created_at := lr.2.clock}],
            clock := lr.2.clock + 1}
  ({status := "success".data,
    transaction_hash := "poe_".data ++ poe_hash.take 16 ++ '_' :: natDigits epoch,
    pod_hash, poe_hash, timestamp := ts, verification := "complete".data,
    ledger := lr.1, chain_pending := true}, db2)

end BlockchainClient

/-! ## `blockchain_chain_repair.repair_chain_links` -/

namespace ChainRepair

/-- One pass of the repair loop over the pre-fetched `(created_at, id)`-ordered
entry list: for each non-genesis position whose stored `previous_hash`
disagrees with the preceding entry's `hash`, issue
`UPDATE blockchain_ledger SET previous_hash = expected WHERE id = ...`.
The expected value comes from the pre-fetched list, not from the updated
table, exactly as the Python loop indexes `entries[i-1]`. -/
def repair_loop : Option Row → List Row → List Row → Nat × List Row
  | _, [], rows => (0, rows)
  | none, r :: rest, rows => repair_loop (some r) rest rows
  | some p, r :: rest, rows =>
      if r.previous_hash ≠ p.hash then
        let res := repair_loop (some r) rest (updateById r.id (fun q => {q with previous_hash := p.hash}) rows)
        (res.1 + 1, res.2)
      else repair_loop (some r) rest rows

/-- `repair_chain_links`: fetch all entries ordered by `(created_at, id)`;
a chain of at most one entry is left untouched; otherwise repair every broken
link and return the number of repairs made. -/
def repair_chain_links (db : DB) : Nat × DB :=
  let entries := sortByKey rowKey db.rows
  if entries.length ≤ 1 then (0, db)
  else
    let res := repair_loop none entries db.rows
    (res.1, {db with rows := res.2})

end ChainRepair

/-! ## The chain-side client (`push_to_chain` and its payload guard) -/

namespace BlockchainClient

/-- `_poe_data_bytes`: accept the PoE hash as hex with or without a `0x`
prefix, left-pad to even length, reject anything longer than 12000 hex
characters (6000 payload bytes, the ~6KB calldata guard) with
`ValueError("poe_hash payload too large")`, and return the `0x`-prefixed data
string. -/
def poe_data_bytes (poe_hash_hex : Str) : Except Str Str :=
  let h := if poe_hash_hex.take 2 = "0x".data then poe_hash_hex.drop 2 else poe_hash_hex
  let h := if h.length % 2 = 1 then '0' :: h else h
  if h.length > 12000 then .error "poe_hash payload too large".data
  else .ok ('0' :: 'x' :: h)

/-- The fabricated transaction id of simulated mode:
`f"sim_{poe_hash_hex[:16]}_{int(time.time())}"`. -/
def sim_tx_hash (poe_hash_hex : Str) (epoch : Nat) : Str :=
  "sim_".data ++ poe_hash_hex.take 16 ++ '_' :: natDigits epoch

/-- `push_to_chain`.  With no RPC endpoint configured (`live = false`) it
returns the simulated transaction id without ever reaching the payload guard.
In live mode it gathers nonce and fees (`nonce_fees_ok` injects an RPC failure
there, which raises), builds the data field through `poe_data_bytes` (whose
`ValueError` also raises), and broadcasts (`send_tx` returns the node's
transaction hash, or `none` for a raising RPC error).  `none` models the call
raising; `submit_queued` catches it per row. -/
def push_to_chain (live : Bool) (epoch : Nat) (nonce_fees_ok : Bool)
    (send_tx : Str → Option Str) (poe_hash_hex : Str) : Option Str :=
  if live = false then some (sim_tx_hash poe_hash_hex epoch)
  else if nonce_fees_ok = false then none
  else match poe_data_bytes poe_hash_hex with
    | .error _ => none
    | .ok data_hex => send_tx data_hex

end BlockchainClient

/-! ## `chain_orchestrator`: the reconciliation steps -/

namespace ChainOrchestrator

/-- `SQL_SCAN_OFFCHAIN`: up to 500 cache rows with `on_chain = false`,
ordered by `created_at`. -/
def scan_offchain (db : DB) : List CacheRow :=
  (sortByKey cacheKey (db.cache.filter (fun c => c.on_chain = false))).take 500

/-- `enqueue_missing_poe`: for every scanned off-chain cache row, run
`SQL_INSERT_LEDGER` (`INSERT ... VALUES ($1, 'queued') ON CONFLICT (poe_hash)
DO NOTHING`) and count the row — the conflict branch raises nothing, so the
counter advances for duplicates too.  Returns the count and the updated
database. -/
def enqueue_step (acc : Nat × DB) (c : CacheRow) : Nat × DB :=
  let db := acc.2
  if db.rows.any (fun r => r.poe_hash = some c.poe_hash) then (acc.1 + 1, db)
  else (acc.1 + 1,
        {db with rows := db.rows ++ [{id := db.nextId, poe_hash := some c.poe_hash,
                                      created_at := db.clock}],
                 nextId := db.nextId + 1, clock := db.clock + 1})

def enqueue_missing_poe (db : DB) : Nat × DB :=
  let scanned := scan_offchain db
  if scanned.isEmpty then (0, db)
  else scanned.foldl enqueue_step (0, db)

/-- `SQL_SELECT_PENDING`: up to 100 `queued` rows ordered by id. -/
def select_queued (db : DB) : List Row :=
  (sortByKey idKey (db.rows.filter (fun r => r.status = "queued".data))).take 100

/-- `submit_queued`, with the `push_to_chain` outcome per PoE hash supplied by
`push` (`none` models the call raising — RPC failure or payload guard — which
the per-row `except` catches, leaving the row untouched).  A `queued` row
whose `poe_hash` column is null makes `push_to_chain` raise before any SQL
runs (slicing `None`), so it is likewise skipped.  A successful push runs
`SQL_MARK_PENDING`, setting `status = 'pending'` and the returned `tx_hash`. -/
def submit_row (push : Str → Option Str) (acc : Nat × DB) (r : Row) : Nat × DB :=
  match r.poe_hash with
  | none => acc
  | some h =>
    match push h with
    | none => acc
    | some txh =>
        let rows := updateById r.id
          (fun q => {q with status := "pending".data, tx_hash := some txh}) acc.2.rows
        (acc.1 + 1, {acc.2 with rows := rows})

def submit_queued (db : DB) (push : Str → Option Str) : Nat × DB :=
  (select_queued db).foldl (submit_row push) (0, db)

/-- `SQL_SELECT_UNCONFIRMED`: up to 200 `pending` rows ordered by id. -/
def select_pending (db : DB) : List Row :=
  (sortByKey idKey (db.rows.filter (fun r => r.status = "pending".data))).take 200

/-- Outcome of `get_tx_receipt` for one transaction, after parsing:
`err` models the RPC call raising, `notMined` a `None` receipt, and `mined`
carries the parsed success flag and block number. -/
inductive ReceiptOutcome where
  | err
  | notMined
  | mined (status_ok : Bool) (block_number : Option Int)

/-- `SQL_FLAG_ONCHAIN` (`UPDATE pods_poe SET on_chain = true WHERE
poe_hash = $1`): with a null `poe_hash` the equality matches no row. -/
def flag_onchain (poe_hash : Option Str) (cache : List CacheRow) : List CacheRow :=
  match poe_hash with
  | none => cache
  | some h => cache.map (fun c => if c.poe_hash = h then {c with on_chain := true} else c)

/-- The orchestrator's `verify_chain_integrity` (the receipt-polling step, a
distinct function from the ledger verifier of the same name in
`blockchain_client`).  `chain_head` is the `get_chain_head()` result used for
simulated confirmations (`none` models that RPC call raising); `receipt`
resolves `get_tx_receipt` per transaction hash.  Per row: a null `tx_hash`
raises on `.startswith` and is skipped; a `sim_`/`pod_`/`poe_` transaction is
confirmed at the simulated head and its cache row flagged on-chain; otherwise
a mined success receipt with a block number confirms, a mined failure receipt
with a block number fails, and anything else leaves the row pending. -/
def verify_row (chain_head : Option Int) (receipt : Str → ReceiptOutcome)
    (acc : Nat × DB) (r : Row) : Nat × DB :=
  match r.tx_hash with
  | none => acc
  | some txh =>
    if txh.take 4 = "sim_".data ∨ txh.take 4 = "pod_".data ∨ txh.take 4 = "poe_".data then
      match chain_head with
      | none => acc
      | some head =>
          let rows := updateById r.id
            (fun q => {q with status := "confirmed".data, block_number := some head})
            acc.2.rows
          (acc.1 + 1, {acc.2 with rows := rows, cache := flag_onchain r.poe_hash acc.2.cache})
    else
      match receipt txh with
      | .err => acc
      | .notMined => acc
      | .mined status_ok blk =>
        match blk with
        | none => acc
        | some b =>
          if status_ok then
            let rows := updateById r.id
              (fun q => {q with status := "confirmed".data, block_number := some b})
              acc.2.rows
            (acc.1 + 1, {acc.2 with rows := rows, cache := flag_onchain r.poe_hash acc.2.cache})
          else
            let rows := updateById r.id (fun q => {q with status := "failed".data}) acc.2.rows
            (acc.1, {acc.2 with rows := rows})

def verify_chain_integrity (db : DB) (chain_head : Option Int)
    (receipt : Str → ReceiptOutcome) : Nat × DB :=
  (select_pending db).foldl (verify_row chain_head receipt) (0, db)

/-- One reconciliation step of the orchestration cycle, as a labelled
transition relation on database states (the oracles of the step are
existentially packaged by the constructors). -/
inductive StepLabel where
  | enqueue
  | submit
  | verify

/-- The step relation: `OrchStep db l db'` holds when the step labelled `l`
can turn `db` into `db'` under some outcome of its injected effects. -/
inductive OrchStep : DB → StepLabel → DB → Prop where
  | enqueue (db : DB) : OrchStep db .enqueue (enqueue_missing_poe db).2
  | submit (db : DB) (push : Str → Option Str) : OrchStep db .submit (submit_queued db push).2
  | verify (db : DB) (chain_head : Option Int) (receipt : Str → ReceiptOutcome) :
      OrchStep db .verify (verify_chain_integrity db chain_head receipt).2

end ChainOrchestrator

/-! ## Theorems -/

open BlockchainClient ChainOrchestrator ChainRepair

/-- C10: with no ledger entries, `verify_chain_integrity` returns the
success shape `{status, message, entries: 0}` in which the `verified`,
`broken_links` and `integrity` keys are absent. -/
theorem claim_C10_empty_ledger_verify (db : DB) (now_ts : Str) (h : db.rows = []) :
    BlockchainClient.verify_chain_integrity db now_ts false =
      {status := "success".data, message := some "Empty chain is valid".data,
       entries := some 0} ∧
    (BlockchainClient.verify_chain_integrity db now_ts false).verified = none ∧
    (BlockchainClient.verify_chain_integrity db now_ts false).broken_links = none ∧
    (BlockchainClient.verify_chain_integrity db now_ts false).integrity = none := by
  simp [BlockchainClient.verify_chain_integrity, h, sortByKey]

/-- Witness for C10 at the empty database. -/
theorem claim_C10_empty_ledger_verify_witness :
    emptyDB.rows = [] ∧
    (BlockchainClient.verify_chain_integrity emptyDB "T".data false).broken_links = none :=
  ⟨rfl, (claim_C10_empty_ledger_verify emptyDB "T".data rfl).2.2.1⟩

/-- C9: a failing last-hash read yields `None` exactly as an empty ledger
does, and a subsequent successful append therefore stores a null
`previous_hash` — a second genesis-style entry on a possibly non-empty
ledger — instead of raising. -/
theorem claim_C9_read_failure_genesis (db : DB) (data : List (Str × Json))
    (ct : Str) (uid : Option Json) (ts : Str) :
    get_last_ledger_hash db true = none ∧
    get_last_ledger_hash emptyDB false = none ∧
    add_to_ledger db data ct uid ts true false =
      (.ok db.nextId (compute_chain_hash (.obj data) none (.str ts)) none db.clock,
       {db with
          rows := db.rows ++ [{id := db.nextId,
                               hash := some (compute_chain_hash (.obj data) none (.str ts)),
                               previous_hash := none,
                               block_data := some (.obj (setField hash_timestamp_key (.str ts) data)),
                               content_type := some ct, user_id := uid,
                               created_at := db.clock}],
          nextId := db.nextId + 1, clock := db.clock + 1}) := by
  refine ⟨rfl, rfl, ?_⟩
  simp [add_to_ledger, get_last_ledger_hash]

/-- C3, counterexample: a failing ledger insert is not surfaced to
`record_pod`'s caller — at the concrete input (empty ledger, empty payload,
insert failing), `record_pod` still reports top-level `status: "success"`
while its nested ledger result carries `status: "error"`; nothing is raised
and no `StoreError` reaches the caller. -/
theorem claim_C3_counterexample :
    (record_pod emptyDB [] "T".data 0 false true false).1.status = "success".data ∧
    (record_pod emptyDB [] "T".data 0 false true false).1.ledger.status = "error".data ∧
    (add_to_ledger emptyDB [] "pod".data none "T".data false true).1.status = "error".data := by
  refine ⟨rfl, rfl, rfl⟩

/-- C3, amended: a failing persistence operation inside `append` is not
raised; `add_to_ledger` catches it and returns the error-shaped result value
to its immediate caller, leaving the database unchanged, and `record_pod` /
`record_poe` nonetheless report top-level success, the append failure being
visible only in their nested `ledger` field. -/
theorem claim_C3_amended (db : DB) (data execution_result : List (Str × Json))
    (ct pod_hash ts : Str) (uid : Option Json) (epoch : Nat) (read_fails cache_fails : Bool) :
    (add_to_ledger db data ct uid ts read_fails true).1.status = "error".data ∧
    (add_to_ledger db data ct uid ts read_fails true).2 = db ∧
    (record_pod db data ts epoch read_fails true cache_fails).1.status = "success".data ∧
    (record_pod db data ts epoch read_fails true cache_fails).1.ledger.status = "error".data ∧
    (record_poe db pod_hash execution_result ts epoch read_fails true cache_fails).1.status
      = "success".data ∧
    (record_poe db pod_hash execution_result ts epoch read_fails true cache_fails).1.ledger.status
      = "error".data := by
  refine ⟨rfl, rfl, ?_, ?_, ?_, ?_⟩ <;>
    simp [record_pod, record_poe, add_to_ledger, AddResult.status]

/-! Helper lemmas about `enqueue_missing_poe` (claim C5). -/

theorem enqueue_step_cache (acc : Nat × DB) (c : CacheRow) :
    (enqueue_step acc c).2.cache = acc.2.cache := by
  simp only [enqueue_step]
  split <;> rfl

theorem enqueue_fold_cache (l : List CacheRow) (acc : Nat × DB) :
    (l.foldl enqueue_step acc).2.cache = acc.2.cache := by
  induction l generalizing acc with
  | nil => rfl
  | cons c cs ih => simpa [List.foldl_cons, enqueue_step_cache] using ih (enqueue_step acc c)

theorem enqueue_fold_rows_extend (l : List CacheRow) (acc : Nat × DB) :
    ∃ ext, (l.foldl enqueue_step acc).2.rows = acc.2.rows ++ ext := by
  induction l generalizing acc with
  | nil => exact ⟨[], by simp⟩
  | cons c cs ih =>
      obtain ⟨ext, hext⟩ := ih (enqueue_step acc c)
      rw [List.foldl_cons, hext]
      simp only [enqueue_step]
      split
      · exact ⟨ext, rfl⟩
      · rename_i hnot
        exact ⟨_ :: ext, by rw [List.append_assoc]; rfl⟩

theorem enqueue_step_present (acc : Nat × DB) (c : CacheRow) :
    ((enqueue_step acc c).2.rows).any (fun r => r.poe_hash = some c.poe_hash) = true := by
  simp only [enqueue_step]
  split
  · assumption
  · simp

theorem enqueue_fold_present (l : List CacheRow) (acc : Nat × DB) (c : CacheRow) (hc : c ∈ l) :
    ((l.foldl enqueue_step acc).2.rows).any (fun r => r.poe_hash = some c.poe_hash) = true := by
  induction l generalizing acc with
  | nil => cases hc
  | cons x xs ih =>
      rw [List.foldl_cons]
      rcases List.mem_cons.mp hc with h | h
      · obtain ⟨ext, hext⟩ := enqueue_fold_rows_extend xs (enqueue_step acc x)
        rw [hext, List.any_append]
        subst h
        rw [enqueue_step_present acc c]
        rfl
      · exact ih (enqueue_step acc x) h

theorem enqueue_fold_noop (l : List CacheRow) (db : DB) (k : Nat)
    (h : ∀ c ∈ l, db.rows.any (fun r => r.poe_hash = some c.poe_hash) = true) :
    l.foldl enqueue_step (k, db) = (k + l.length, db) := by
  induction l generalizing k with
  | nil => simp
  | cons c cs ih =>
      rw [List.foldl_cons]
      have hstep : enqueue_step (k, db) c = (k + 1, db) := by
        simp only [enqueue_step]
        simp [h c (List.mem_cons_self c cs)]
      rw [hstep, ih (k + 1) (fun c hc => h c (List.mem_cons_of_mem _ hc))]
      simp [Nat.add_comm, Nat.add_assoc, Nat.add_left_comm]

theorem enqueue_cache (db : DB) : (enqueue_missing_poe db).2.cache = db.cache := by
  simp only [enqueue_missing_poe]
  split
  · rfl
  · exact enqueue_fold_cache _ _

theorem enqueue_present (db : DB) (c : CacheRow) (hc : c ∈ scan_offchain db) :
    ((enqueue_missing_poe db).2.rows).any (fun r => r.poe_hash = some c.poe_hash) = true := by
  simp only [enqueue_missing_poe]
  split
  · rename_i hempty
    rw [List.isEmpty_iff] at hempty
    rw [hempty] at hc
    cases hc
  · exact enqueue_fold_present _ _ _ hc

theorem enqueue_again (db dbx : DB) (hcache : dbx.cache = db.cache)
    (hpresent : ∀ c ∈ scan_offchain db,
      dbx.rows.any (fun r => r.poe_hash = some c.poe_hash) = true) :
    enqueue_missing_poe dbx = ((scan_offchain db).length, dbx) := by
  have hscan : scan_offchain dbx = scan_offchain db := by
    simp only [scan_offchain, hcache]
  simp only [enqueue_missing_poe, hscan]
  split
  · rename_i hempty
    rw [List.isEmpty_iff] at hempty
    rw [hempty]
    rfl
  · rw [enqueue_fold_noop _ _ _ hpresent]
    simp

/-- C5, counterexample: with one off-chain cache record and nothing else,
calling `enqueue_missing_poe` twice in a row inserts a ledger row only the
first time, but the second call still returns count 1, not 0 — the
`ON CONFLICT DO NOTHING` insert raises nothing, so the loop counts the
duplicate too. -/
theorem claim_C5_counterexample :
    (enqueue_missing_poe (enqueue_missing_poe
        {emptyDB with cache := [{poe_hash := "h".data, pod_hash := "h".data,
                                 content_type := "poe".data, execution_data := .null,
                                 on_chain := false, created_at := 0}]}).2).1 = 1 ∧
    (enqueue_missing_poe (enqueue_missing_poe
        {emptyDB with cache := [{poe_hash := "h".data, pod_hash := "h".data,
                                 content_type := "poe".data, execution_data := .null,
                                 on_chain := false, created_at := 0}]}).2).2.rows.length =
      (enqueue_missing_poe
        {emptyDB with cache := [{poe_hash := "h".data, pod_hash := "h".data,
                                 content_type := "poe".data, execution_data := .null,
                                 on_chain := false, created_at := 0}]}).2.rows.length := by
  constructor <;> rfl

/-- C5, amended: calling `enqueue_missing_poe` twice in a row with no new
cache records in between inserts zero new `ChainSubmission` rows the second
time — the second call leaves the database exactly as the first left it — but
the count it returns is the number of scanned off-chain cache rows (each
`ON CONFLICT DO NOTHING` duplicate still increments the counter), not zero. -/
theorem claim_C5_amended (db : DB) :
    enqueue_missing_poe (enqueue_missing_poe db).2 =
      ((scan_offchain db).length, (enqueue_missing_poe db).2) :=
  enqueue_again db (enqueue_missing_poe db).2 (enqueue_cache db)
    (fun c hc => enqueue_present db c hc)

/-- The 7000-byte payload of the C8 scenario, as 14000 hex characters. -/
def bigPayload : Str := List.replicate 14000 'a'

/-- C8: `_poe_data_bytes` rejects any payload above the ~6KB calldata guard —
for a hex payload of `n` bytes (no `0x` prefix, even length `2 * n`) it
raises `ValueError("poe_hash payload too large")` exactly when `n > 6000` —
so a live-mode `push_to_chain` raises before broadcasting, and
`submit_queued`'s per-row handler catches it, leaving the entry `queued`:
submitting a 7000-byte payload (`bigPayload`) updates nothing and counts
zero submissions. -/
theorem poe_data_bytes_guard (n : Nat) (h : Str) (hlen : h.length = 2 * n)
    (hnopre : h.take 2 ≠ "0x".data) :
    poe_data_bytes h = .error "poe_hash payload too large".data ↔ 6000 < n := by
  have h1 : (if h.take 2 = "0x".data then h.drop 2 else h) = h := if_neg hnopre
  have h2 : (if h.length % 2 = 1 then '0' :: h else h) = h := if_neg (by omega)
  simp only [poe_data_bytes, h1, h2]
  constructor
  · intro he
    by_contra hn
    rw [if_neg (by omega)] at he
    cases he
  · intro hn
    rw [if_pos (by omega)]

theorem submit_row_skip (push : Str → Option Str) (acc : Nat × DB) (r : Row) (h : Str)
    (hph : r.poe_hash = some h) (hp : push h = none) : submit_row push acc r = acc := by
  simp only [submit_row, hph, hp]

theorem claim_C8_payload_guard (n : Nat) (h : Str) (hlen : h.length = 2 * n)
    (hnopre : h.take 2 ≠ "0x".data) :
    (poe_data_bytes h = .error "poe_hash payload too large".data ↔ 6000 < n) ∧
    poe_data_bytes bigPayload = .error "poe_hash payload too large".data ∧
    (∀ (epoch : Nat) (send_tx : Str → Option Str),
      push_to_chain true epoch true send_tx bigPayload = none) ∧
    (∀ (epoch : Nat) (send_tx : Str → Option Str) (r : Row),
      r.poe_hash = some bigPayload → r.status = "queued".data →
      submit_queued {emptyDB with rows := [r]} (push_to_chain true epoch true send_tx) =
        (0, {emptyDB with rows := [r]})) := by
  have hblen : bigPayload.length = 2 * 7000 := by
    rw [bigPayload, List.length_replicate]
  have hbpre : bigPayload.take 2 ≠ "0x".data := by decide
  have herr : poe_data_bytes bigPayload = .error "poe_hash payload too large".data :=
    (poe_data_bytes_guard 7000 bigPayload hblen hbpre).mpr (by omega)
  have hpush : ∀ (epoch : Nat) (send_tx : Str → Option Str),
      push_to_chain true epoch true send_tx bigPayload = none := by
    intro epoch send_tx
    simp [push_to_chain, herr]
  refine ⟨poe_data_bytes_guard n h hlen hnopre, herr, hpush, ?_⟩
  intro epoch send_tx r hph hst
  have hsel : select_queued {emptyDB with rows := [r]} = [r] := by
    simp [select_queued, hst, sortByKey, insertByKey]
  rw [submit_queued, hsel, List.foldl_cons,
      submit_row_skip _ _ _ _ hph (hpush epoch send_tx), List.foldl_nil]

/-- Witness for C8 at the 7000-byte payload and a concrete queued row. -/
theorem claim_C8_payload_guard_witness :
    (bigPayload.length = 2 * 7000 ∧ bigPayload.take 2 ≠ "0x".data) ∧
    (poe_data_bytes bigPayload = .error "poe_hash payload too large".data ↔ 6000 < 7000) := by
  have hlen : bigPayload.length = 2 * 7000 := by
    rw [bigPayload, List.length_replicate]
  have hpre : bigPayload.take 2 ≠ "0x".data := by decide
  exact ⟨⟨hlen, hpre⟩, (claim_C8_payload_guard 7000 bigPayload hlen hpre).1⟩

/-! Helper lemmas for the frame claim C4. -/

theorem insertByKey_perm (key : α → Nat × Nat) (x : α) (l : List α) :
    (insertByKey key x l).Perm (x :: l) := by
  induction l with
  | nil => exact List.Perm.refl _
  | cons y ys ih =>
      simp only [insertByKey]
      split
      · exact (ih.cons y).trans (List.Perm.swap x y ys)
      · exact List.Perm.refl _

theorem sortByKey_perm (key : α → Nat × Nat) (l : List α) :
    (sortByKey key l).Perm l := by
  induction l with
  | nil => exact List.Perm.refl _
  | cons x xs ih => exact (insertByKey_perm key x (sortByKey key xs)).trans (ih.cons x)

/-- The projection of a ledger row onto the hash-chain columns that
invariant I3 protects. -/
def chain_cols (r : Row) : Nat × Option Str × Option Str := (r.id, r.hash, r.previous_hash)

theorem updateById_map_frame {β : Type} (g : Row → β) (i : Nat) (f : Row → Row)
    (rows : List Row) (hf : ∀ r, g (f r) = g r) :
    (updateById i f rows).map g = rows.map g := by
  unfold updateById
  rw [List.map_map]
  have : (g ∘ fun r => if r.id = i then f r else r) = g := by
    funext r
    by_cases h : r.id = i <;> simp [h, hf r]
  rw [this]

theorem submit_row_frame (push : Str → Option Str) (acc : Nat × DB) (r : Row) :
    (((submit_row push acc r).2.rows).map chain_cols) = (acc.2.rows).map chain_cols := by
  rcases hph : r.poe_hash with _ | h
  · simp [submit_row, hph]
  · rcases hp : push h with _ | txh
    · simp [submit_row, hph, hp]
    · simp only [submit_row, hph, hp]
      exact updateById_map_frame chain_cols r.id _ acc.2.rows (fun q => rfl)

theorem submit_fold_frame (push : Str → Option Str) (l : List Row) (acc : Nat × DB) :
    (((l.foldl (submit_row push) acc).2.rows).map chain_cols) = (acc.2.rows).map chain_cols := by
  induction l generalizing acc with
  | nil => rfl
  | cons r rest ih => rw [List.foldl_cons, ih, submit_row_frame]

theorem verify_row_frame (ch : Option Int) (rc : Str → ReceiptOutcome) (acc : Nat × DB) (r : Row) :
    (((verify_row ch rc acc r).2.rows).map chain_cols) = (acc.2.rows).map chain_cols := by
  rcases htx : r.tx_hash with _ | txh
  · simp [verify_row, htx]
  · simp only [verify_row, htx]
    split
    · rcases ch with _ | head
      · rfl
      · exact updateById_map_frame chain_cols r.id _ acc.2.rows (fun q => rfl)
    · rcases hr : rc txh with _ | _ | ⟨ok, blk⟩
      · rfl
      · rfl
      · rcases blk with _ | b
        · rfl
        · cases ok
          · exact updateById_map_frame chain_cols r.id _ acc.2.rows (fun q => rfl)
          · exact updateById_map_frame chain_cols r.id _ acc.2.rows (fun q => rfl)

theorem verify_fold_frame (ch : Option Int) (rc : Str → ReceiptOutcome)
    (l : List Row) (acc : Nat × DB) :
    (((l.foldl (verify_row ch rc) acc).2.rows).map chain_cols) = (acc.2.rows).map chain_cols := by
  induction l generalizing acc with
  | nil => rfl
  | cons r rest ih => rw [List.foldl_cons, ih, verify_row_frame]

namespace ChainRepair

/-- The id/expected-hash pairs of the non-genesis entries, in
`(created_at, id)` order, whose stored `previous_hash` disagrees with the
immediately preceding entry's `hash` — the links `repair_chain_links`
rewrites. -/
def broken_pairs : Option Row → List Row → List (Nat × Option Str)
  | _, [] => []
  | none, r :: rest => broken_pairs (some r) rest
  | some p, r :: rest =>
      (if r.previous_hash ≠ p.hash then [(r.id, p.hash)] else []) ++ broken_pairs (some r) rest

/-- The broken links of the whole database, as the repair tool walks them. -/
def repair_expected (db : DB) : List (Nat × Option Str) :=
  broken_pairs none (sortByKey rowKey db.rows)

def lookupPair (i : Nat) : List (Nat × Option Str) → Option (Option Str)
  | [] => none
  | p :: ps => if p.1 = i then some p.2 else lookupPair i ps

theorem lookupPair_eq_none (i : Nat) (ps : List (Nat × Option Str))
    (h : i ∉ ps.map Prod.fst) : lookupPair i ps = none := by
  induction ps with
  | nil => rfl
  | cons p ps ih =>
      simp only [List.map_cons, List.mem_cons] at h
      push_neg at h
      have hne : p.1 ≠ i := fun he => h.1 he.symm
      simp only [lookupPair]
      rw [if_neg hne]
      exact ih h.2

theorem repair_loop_eq (prev : Option Row) (entries rows : List Row) :
    repair_loop prev entries rows =
      ((broken_pairs prev entries).length,
       (broken_pairs prev entries).foldl
         (fun rs p => updateById p.1 (fun q => {q with previous_hash := p.2}) rs) rows) := by
  induction entries generalizing prev rows with
  | nil => cases prev <;> rfl
  | cons r rest ih =>
      cases prev with
      | none => simpa [repair_loop, broken_pairs] using ih (some r) rows
      | some p =>
          by_cases hm : r.previous_hash ≠ p.hash
          · simp only [repair_loop, broken_pairs, if_pos hm]
            rw [ih (some r)]
            simp [Nat.add_comm]
          · simp only [repair_loop, broken_pairs, if_neg hm, List.nil_append]
            exact ih (some r) rows

theorem apply_pairs_map (ps : List (Nat × Option Str)) (rows : List Row)
    (hnd : (ps.map Prod.fst).Nodup) :
    ps.foldl (fun rs p => updateById p.1 (fun q => {q with previous_hash := p.2}) rs) rows =
      rows.map (fun r =>
        match lookupPair r.id ps with
        | some e => {r with previous_hash := e}
        | none => r) := by
  induction ps generalizing rows with
  | nil =>
      simp only [List.foldl_nil, lookupPair]
      exact (List.map_id'' (fun _ => rfl) rows).symm
  | cons p ps ih =>
      simp only [List.map_cons, List.nodup_cons] at hnd
      rw [List.foldl_cons, ih _ hnd.2]
      unfold updateById
      rw [List.map_map]
      apply List.map_congr_left
      intro r _
      by_cases hid : r.id = p.1
      · simp only [Function.comp, if_pos hid, lookupPair, if_pos hid.symm]
        rw [lookupPair_eq_none _ _ (by simpa [hid] using hnd.1)]
      · have hne : p.1 ≠ r.id := fun he => hid he.symm
        simp only [Function.comp, if_neg hid, lookupPair, if_neg hne]

theorem broken_pairs_ids_sublist (prev : Option Row) (entries : List Row) :
    ((broken_pairs prev entries).map Prod.fst).Sublist (entries.map Row.id) := by
  induction entries generalizing prev with
  | nil => cases prev <;> exact List.Sublist.refl _
  | cons r rest ih =>
      cases prev with
      | none =>
          simpa [broken_pairs] using (ih (some r)).cons r.id
      | some p =>
          by_cases hm : r.previous_hash ≠ p.hash
          · simpa [broken_pairs, if_pos hm] using (ih (some r)).cons₂ r.id
          · simpa [broken_pairs, if_neg hm] using (ih (some r)).cons r.id

end ChainRepair

theorem add_to_ledger_rows_ext (db : DB) (data : List (Str × Json)) (ct : Str)
    (uid : Option Json) (ts : Str) (rf inf : Bool) :
    ∃ ext, (add_to_ledger db data ct uid ts rf inf).2.rows = db.rows ++ ext := by
  cases inf
  · exact ⟨_, rfl⟩
  · exact ⟨[], (List.append_nil _).symm⟩

theorem record_pod_rows (db : DB) (data : List (Str × Json)) (ts : Str) (epoch : Nat)
    (f1 f2 f3 : Bool) :
    (record_pod db data ts epoch f1 f2 f3).2.rows =
      (add_to_ledger db (pod_payload data ts) "pod".data (some (user_id_of data)) ts f1 f2).2.rows := by
  simp only [record_pod]
  split
  · rfl
  · split <;> rfl

theorem record_poe_rows (db : DB) (ph : Str) (res : List (Str × Json)) (ts : Str) (epoch : Nat)
    (f1 f2 f3 : Bool) :
    (record_poe db ph res ts epoch f1 f2 f3).2.rows =
      (add_to_ledger db (poe_payload ph res ts) "poe".data (some (user_id_of res)) ts f1 f2).2.rows := by
  simp only [record_poe]
  split
  · rfl
  · split <;> rfl

/-- C4: the repair operation rewrites exactly the `previous_hash` of the
non-genesis entries (in `(created_at, id)` order) whose stored link disagrees
with the preceding entry's hash, never any `hash`; and no other modeled
operation — append, PoD/PoE recording, enqueueing, submission, receipt
verification — alters an existing entry's `hash` or `previous_hash` (they
only ever append fresh rows or touch status/tx/block/cache columns). -/
theorem claim_C4_append_only (db : DB) (hids : (db.rows.map Row.id).Nodup) :
    (repair_chain_links db).2.rows = db.rows.map (fun r =>
        match ChainRepair.lookupPair r.id (ChainRepair.repair_expected db) with
        | some e => {r with previous_hash := e}
        | none => r) ∧
    (repair_chain_links db).2.rows.map (fun r => (r.id, r.hash)) =
      db.rows.map (fun r => (r.id, r.hash)) ∧
    (∀ data ct uid ts rf inf, ∃ ext,
      ((add_to_ledger db data ct uid ts rf inf).2.rows).map chain_cols =
        db.rows.map chain_cols ++ ext) ∧
    (∀ data ts epoch f1 f2 f3, ∃ ext,
      ((record_pod db data ts epoch f1 f2 f3).2.rows).map chain_cols =
        db.rows.map chain_cols ++ ext) ∧
    (∀ ph res ts epoch f1 f2 f3, ∃ ext,
      ((record_poe db ph res ts epoch f1 f2 f3).2.rows).map chain_cols =
        db.rows.map chain_cols ++ ext) ∧
    (∃ ext, ((enqueue_missing_poe db).2.rows).map chain_cols =
        db.rows.map chain_cols ++ ext) ∧
    (∀ push, ((submit_queued db push).2.rows).map chain_cols = db.rows.map chain_cols) ∧
    (∀ ch rc, ((ChainOrchestrator.verify_chain_integrity db ch rc).2.rows).map chain_cols =
        db.rows.map chain_cols) := by
  have hperm : (sortByKey rowKey db.rows).Perm db.rows := sortByKey_perm _ _
  have hsortids : ((sortByKey rowKey db.rows).map Row.id).Nodup :=
    ((hperm.map Row.id).nodup_iff).mpr hids
  have hpairs : ((ChainRepair.repair_expected db).map Prod.fst).Nodup :=
    (ChainRepair.broken_pairs_ids_sublist none _).nodup hsortids
  have hrepair : (repair_chain_links db).2.rows = db.rows.map (fun r =>
      match ChainRepair.lookupPair r.id (ChainRepair.repair_expected db) with
      | some e => {r with previous_hash := e}
      | none => r) := by
    simp only [repair_chain_links]
    split
    · rename_i hshort
      have hempty : ChainRepair.repair_expected db = [] := by
        unfold ChainRepair.repair_expected
        match hs : sortByKey rowKey db.rows with
        | [] => rfl
        | [x] => rfl
        | x :: y :: rest =>
            rw [hs] at hshort
            simp at hshort
      rw [hempty]
      simp [ChainRepair.lookupPair]
    · rw [ChainRepair.repair_loop_eq]
      exact ChainRepair.apply_pairs_map _ _ hpairs
  refine ⟨hrepair, ?_, ?_, ?_, ?_, ?_, ?_, ?_⟩
  · rw [hrepair, List.map_map]
    apply List.map_congr_left
    intro r _
    rcases hl : ChainRepair.lookupPair r.id (ChainRepair.repair_expected db) with _ | e <;>
      simp [Function.comp, hl]
  · intro data ct uid ts rf inf
    obtain ⟨ext, hext⟩ := add_to_ledger_rows_ext db data ct uid ts rf inf
    exact ⟨ext.map chain_cols, by rw [hext, List.map_append]⟩
  · intro data ts epoch f1 f2 f3
    obtain ⟨ext, hext⟩ :=
      add_to_ledger_rows_ext db (pod_payload data ts) "pod".data (some (user_id_of data)) ts f1 f2
    exact ⟨ext.map chain_cols, by rw [record_pod_rows, hext, List.map_append]⟩
  · intro ph res ts epoch f1 f2 f3
    obtain ⟨ext, hext⟩ :=
      add_to_ledger_rows_ext db (poe_payload ph res ts) "poe".data (some (user_id_of res)) ts f1 f2
    exact ⟨ext.map chain_cols, by rw [record_poe_rows, hext, List.map_append]⟩
  · simp only [enqueue_missing_poe]
    split
    · exact ⟨[], by simp⟩
    · obtain ⟨ext, hext⟩ := enqueue_fold_rows_extend (scan_offchain db) (0, db)
      exact ⟨ext.map chain_cols, by rw [hext, List.map_append]⟩
  · intro push
    exact submit_fold_frame push _ _
  · intro ch rc
    exact verify_fold_frame ch rc _ _

/-- Witness for C4 at a two-row database with a broken middle link. -/
theorem claim_C4_append_only_witness :
    ((({emptyDB with rows :=
        [{id := 1, hash := some "a".data, created_at := 0},
         {id := 2, hash := some "b".data, previous_hash := some "x".data,
          created_at := 1}]} : DB).rows.map Row.id).Nodup) ∧
    (repair_chain_links {emptyDB with rows :=
        [{id := 1, hash := some "a".data, created_at := 0},
         {id := 2, hash := some "b".data, previous_hash := some "x".data,
          created_at := 1}]}).2.rows.map (fun r => (r.id, r.hash)) =
      [(1, some "a".data), (2, some "b".data)] := by
  refine ⟨by decide, ?_⟩
  rw [(claim_C4_append_only _ (by decide)).2.1]
  rfl

/-! Helper lemmas for the state-machine claim C7. -/

theorem mem_updateById_of_ne (i : Nat) (f : Row → Row) (rows : List Row) (r : Row)
    (hr : r ∈ rows) (hne : r.id ≠ i) : r ∈ updateById i f rows := by
  have := List.mem_map_of_mem (fun q => if q.id = i then f q else q) hr
  simpa [updateById, if_neg hne] using this

theorem mem_updateById_self (i : Nat) (f : Row → Row) (rows : List Row) (r : Row)
    (hr : r ∈ rows) (heq : r.id = i) : f r ∈ updateById i f rows := by
  have := List.mem_map_of_mem (fun q => if q.id = i then f q else q) hr
  simpa [updateById, if_pos heq] using this

theorem mem_select_queued (db : DB) (x : Row) (hx : x ∈ select_queued db) :
    x ∈ db.rows ∧ x.status = "queued".data := by
  unfold select_queued at hx
  have h1 := List.mem_of_mem_take hx
  have h2 := (sortByKey_perm idKey _).mem_iff.mp h1
  refine ⟨List.mem_of_mem_filter h2, ?_⟩
  have := List.of_mem_filter h2
  simpa using this

theorem mem_select_pending (db : DB) (x : Row) (hx : x ∈ select_pending db) :
    x ∈ db.rows ∧ x.status = "pending".data := by
  unfold select_pending at hx
  have h1 := List.mem_of_mem_take hx
  have h2 := (sortByKey_perm idKey _).mem_iff.mp h1
  refine ⟨List.mem_of_mem_filter h2, ?_⟩
  have := List.of_mem_filter h2
  simpa using this

theorem select_queued_ids_nodup (db : DB) (hids : (db.rows.map Row.id).Nodup) :
    ((select_queued db).map Row.id).Nodup := by
  have hfil : ((db.rows.filter (fun r => r.status = "queued".data)).map Row.id).Nodup :=
    ((List.filter_sublist db.rows).map Row.id).nodup hids
  have hsort : ((sortByKey idKey (db.rows.filter (fun r => r.status = "queued".data))).map
      Row.id).Nodup :=
    (((sortByKey_perm idKey _).map Row.id).nodup_iff).mpr hfil
  exact ((List.take_sublist _ _).map Row.id).nodup hsort

theorem select_pending_ids_nodup (db : DB) (hids : (db.rows.map Row.id).Nodup) :
    ((select_pending db).map Row.id).Nodup := by
  have hfil : ((db.rows.filter (fun r => r.status = "pending".data)).map Row.id).Nodup :=
    ((List.filter_sublist db.rows).map Row.id).nodup hids
  have hsort : ((sortByKey idKey (db.rows.filter (fun r => r.status = "pending".data))).map
      Row.id).Nodup :=
    (((sortByKey_perm idKey _).map Row.id).nodup_iff).mpr hfil
  exact ((List.take_sublist _ _).map Row.id).nodup hsort

theorem submit_fold_preserve (push : Str → Option Str) (sel : List Row) (acc : Nat × DB)
    (r : Row) (hr : r ∈ acc.2.rows) (hid : ∀ x ∈ sel, r.id ≠ x.id) :
    r ∈ (sel.foldl (submit_row push) acc).2.rows := by
  induction sel generalizing acc with
  | nil => exact hr
  | cons x rest ih =>
      rw [List.foldl_cons]
      refine ih (submit_row push acc x) ?_ (fun y hy => hid y (List.mem_cons_of_mem _ hy))
      rcases hph : x.poe_hash with _ | h
      · simpa [submit_row, hph] using hr
      · rcases hp : push h with _ | tx
        · simpa [submit_row, hph, hp] using hr
        · simp only [submit_row, hph, hp]
          exact mem_updateById_of_ne _ _ _ _ hr (hid x (List.mem_cons_self _ _))

theorem verify_fold_preserve (ch : Option Int) (rc : Str → ReceiptOutcome) (sel : List Row)
    (acc : Nat × DB) (r : Row) (hr : r ∈ acc.2.rows) (hid : ∀ x ∈ sel, r.id ≠ x.id) :
    r ∈ (sel.foldl (verify_row ch rc) acc).2.rows := by
  induction sel generalizing acc with
  | nil => exact hr
  | cons x rest ih =>
      rw [List.foldl_cons]
      refine ih (verify_row ch rc acc x) ?_ (fun y hy => hid y (List.mem_cons_of_mem _ hy))
      have hne := hid x (List.mem_cons_self _ _)
      rcases htx : x.tx_hash with _ | txh
      · simpa [verify_row, htx] using hr
      · simp only [verify_row, htx]
        split
        · rcases ch with _ | head
          · exact hr
          · exact mem_updateById_of_ne _ _ _ _ hr hne
        · rcases hrc : rc txh with _ | _ | ⟨ok, blk⟩
          · exact hr
          · exact hr
          · rcases blk with _ | b
            · exact hr
            · cases ok
              · exact mem_updateById_of_ne _ _ _ _ hr hne
              · exact mem_updateById_of_ne _ _ _ _ hr hne

theorem submit_fold_mem (push : Str → Option Str) (sel : List Row) (acc : Nat × DB)
    (r : Row) (hr : r ∈ acc.2.rows)
    (hnd : (sel.map Row.id).Nodup)
    (hq : ∀ x ∈ sel, x.status = "queued".data)
    (huniq : ∀ x ∈ sel, r.id = x.id → r = x) :
    r ∈ (sel.foldl (submit_row push) acc).2.rows ∨
    (r.status = "queued".data ∧
      ∃ tx, {r with status := "pending".data, tx_hash := some tx} ∈
        (sel.foldl (submit_row push) acc).2.rows) := by
  induction sel generalizing acc with
  | nil => exact Or.inl hr
  | cons x rest ih =>
      simp only [List.map_cons, List.nodup_cons] at hnd
      rw [List.foldl_cons]
      by_cases hxid : r.id = x.id
      · have hrx : r = x := huniq x (List.mem_cons_self _ _) hxid
        have hrestid : ∀ y ∈ rest, r.id ≠ y.id := by
          intro y hy he
          exact hnd.1 (by rw [← hxid, he]; exact List.mem_map_of_mem Row.id hy)
        rcases hph : x.poe_hash with _ | h
        · refine Or.inl (submit_fold_preserve push rest _ r ?_ hrestid)
          simpa [submit_row, hph] using hr
        · rcases hp : push h with _ | tx
          · refine Or.inl (submit_fold_preserve push rest _ r ?_ hrestid)
            simpa [submit_row, hph, hp] using hr
          · refine Or.inr ⟨by rw [hrx]; exact hq x (List.mem_cons_self _ _), tx, ?_⟩
            refine submit_fold_preserve push rest _ _ ?_ hrestid
            simp only [submit_row, hph, hp]
            exact mem_updateById_self _ _ _ _ hr hxid
      · have hr2 : r ∈ (submit_row push acc x).2.rows := by
          rcases hph : x.poe_hash with _ | h
          · simpa [submit_row, hph] using hr
          · rcases hp : push h with _ | tx
            · simpa [submit_row, hph, hp] using hr
            · simp only [submit_row, hph, hp]
              exact mem_updateById_of_ne _ _ _ _ hr hxid
        exact ih (submit_row push acc x) hr2 hnd.2
          (fun y hy => hq y (List.mem_cons_of_mem _ hy))
          (fun y hy => huniq y (List.mem_cons_of_mem _ hy))

theorem verify_fold_mem (ch : Option Int) (rc : Str → ReceiptOutcome) (sel : List Row)
    (acc : Nat × DB) (r : Row) (hr : r ∈ acc.2.rows)
    (hnd : (sel.map Row.id).Nodup)
    (hq : ∀ x ∈ sel, x.status = "pending".data)
    (huniq : ∀ x ∈ sel, r.id = x.id → r = x) :
    r ∈ (sel.foldl (verify_row ch rc) acc).2.rows ∨
    (r.status = "pending".data ∧
      ((∃ b, {r with status := "confirmed".data, block_number := some b} ∈
          (sel.foldl (verify_row ch rc) acc).2.rows) ∨
        {r with status := "failed".data} ∈ (sel.foldl (verify_row ch rc) acc).2.rows)) := by
  induction sel generalizing acc with
  | nil => exact Or.inl hr
  | cons x rest ih =>
      simp only [List.map_cons, List.nodup_cons] at hnd
      rw [List.foldl_cons]
      by_cases hxid : r.id = x.id
      · have hrx : r = x := huniq x (List.mem_cons_self _ _) hxid
        have hrestid : ∀ y ∈ rest, r.id ≠ y.id := by
          intro y hy he
          exact hnd.1 (by rw [← hxid, he]; exact List.mem_map_of_mem Row.id hy)
        have hst : r.status = "pending".data := by
          rw [hrx]; exact hq x (List.mem_cons_self _ _)
        rcases htx : x.tx_hash with _ | txh
        · refine Or.inl (verify_fold_preserve ch rc rest _ r ?_ hrestid)
          simpa [verify_row, htx] using hr
        · simp only [verify_row, htx]
          split
          · rcases ch with _ | head
            · exact Or.inl (verify_fold_preserve none rc rest _ r hr hrestid)
            · refine Or.inr ⟨hst, Or.inl ⟨head, ?_⟩⟩
              refine verify_fold_preserve (some head) rc rest _ _ ?_ hrestid
              exact mem_updateById_self _ _ _ _ hr hxid
          · rcases hrc : rc txh with _ | _ | ⟨ok, blk⟩
            · exact Or.inl (verify_fold_preserve ch rc rest _ r hr hrestid)
            · exact Or.inl (verify_fold_preserve ch rc rest _ r hr hrestid)
            · rcases blk with _ | b
              · exact Or.inl (verify_fold_preserve ch rc rest _ r hr hrestid)
              · cases ok
                · refine Or.inr ⟨hst, Or.inr ?_⟩
                  refine verify_fold_preserve ch rc rest _ _ ?_ hrestid
                  exact mem_updateById_self _ _ _ _ hr hxid
                · refine Or.inr ⟨hst, Or.inl ⟨b, ?_⟩⟩
                  refine verify_fold_preserve ch rc rest _ _ ?_ hrestid
                  exact mem_updateById_self _ _ _ _ hr hxid
      · have hr2 : r ∈ (verify_row ch rc acc x).2.rows := by
          rcases htx : x.tx_hash with _ | txh
          · simpa [verify_row, htx] using hr
          · simp only [verify_row, htx]
            split
            · rcases ch with _ | head
              · exact hr
              · exact mem_updateById_of_ne _ _ _ _ hr hxid
            · rcases hrc : rc txh with _ | _ | ⟨ok, blk⟩
              · exact hr
              · exact hr
              · rcases blk with _ | b
                · exact hr
                · cases ok
                  · exact mem_updateById_of_ne _ _ _ _ hr hxid
                  · exact mem_updateById_of_ne _ _ _ _ hr hxid
        exact ih (verify_row ch rc acc x) hr2 hnd.2
          (fun y hy => hq y (List.mem_cons_of_mem _ hy))
          (fun y hy => huniq y (List.mem_cons_of_mem _ hy))

/-- Wellformedness of a database state: ledger ids are distinct (the primary
key) and below the next serial value. -/
def WFdb (db : DB) : Prop :=
  (db.rows.map Row.id).Nodup ∧ ∀ r ∈ db.rows, r.id < db.nextId

theorem ids_of_chain_cols (rows rows' : List Row)
    (h : rows'.map chain_cols = rows.map chain_cols) :
    rows'.map Row.id = rows.map Row.id := by
  have := congrArg (List.map (fun p : Nat × Option Str × Option Str => p.1)) h
  simpa [List.map_map, Function.comp, chain_cols] using this

theorem submit_row_next (push : Str → Option Str) (acc : Nat × DB) (r : Row) :
    (submit_row push acc r).2.nextId = acc.2.nextId := by
  rcases hph : r.poe_hash with _ | h
  · simp [submit_row, hph]
  · rcases hp : push h with _ | tx
    · simp [submit_row, hph, hp]
    · simp [submit_row, hph, hp]

theorem submit_fold_next (push : Str → Option Str) (sel : List Row) (acc : Nat × DB) :
    ((sel.foldl (submit_row push) acc).2).nextId = acc.2.nextId := by
  induction sel generalizing acc with
  | nil => rfl
  | cons x rest ih => rw [List.foldl_cons, ih, submit_row_next]

theorem verify_row_next (ch : Option Int) (rc : Str → ReceiptOutcome) (acc : Nat × DB) (r : Row) :
    (verify_row ch rc acc r).2.nextId = acc.2.nextId := by
  rcases htx : r.tx_hash with _ | txh
  · simp [verify_row, htx]
  · simp only [verify_row, htx]
    split
    · rcases ch with _ | head <;> rfl
    · rcases hrc : rc txh with _ | _ | ⟨ok, blk⟩
      · rfl
      · rfl
      · rcases blk with _ | b
        · rfl
        · cases ok <;> rfl

theorem verify_fold_next (ch : Option Int) (rc : Str → ReceiptOutcome) (sel : List Row)
    (acc : Nat × DB) : ((sel.foldl (verify_row ch rc) acc).2).nextId = acc.2.nextId := by
  induction sel generalizing acc with
  | nil => rfl
  | cons x rest ih => rw [List.foldl_cons, ih, verify_row_next]

theorem wf_of_frame (db : DB) (db' : DB)
    (hrows : db'.rows.map chain_cols = db.rows.map chain_cols)
    (hnext : db'.nextId = db.nextId) (hwf : WFdb db) : WFdb db' := by
  have hids := ids_of_chain_cols db.rows db'.rows hrows
  refine ⟨hids ▸ hwf.1, ?_⟩
  intro r hr
  have : r.id ∈ db'.rows.map Row.id := List.mem_map_of_mem Row.id hr
  rw [hids] at this
  obtain ⟨q, hq, hqid⟩ := List.mem_map.mp this
  rw [hnext, ← hqid]
  exact hwf.2 q hq

theorem enqueue_step_wf (acc : Nat × DB) (c : CacheRow) (hwf : WFdb acc.2) :
    WFdb (enqueue_step acc c).2 := by
  simp only [enqueue_step]
  split
  · exact hwf
  · refine ⟨?_, ?_⟩
    · simp only [List.map_append, List.map_cons, List.map_nil]
      rw [List.nodup_append]
      refine ⟨hwf.1, List.nodup_singleton _, ?_⟩
      intro a ha hb
      simp only [List.mem_singleton] at hb
      obtain ⟨q, hq, hqid⟩ := List.mem_map.mp ha
      subst hb
      exact absurd (hqid ▸ hwf.2 q hq) (lt_irrefl _)
    · intro r hr
      rcases List.mem_append.mp hr with h | h
      · exact Nat.lt_succ_of_lt (hwf.2 r h)
      · simp only [List.mem_singleton] at h
        subst h
        exact Nat.lt_succ_self _

theorem enqueue_fold_wf (l : List CacheRow) (acc : Nat × DB) (hwf : WFdb acc.2) :
    WFdb ((l.foldl enqueue_step acc).2) := by
  induction l generalizing acc with
  | nil => exact hwf
  | cons c rest ih => exact ih (enqueue_step acc c) (enqueue_step_wf acc c hwf)

theorem orch_step_wf (db : DB) (l : StepLabel) (db' : DB)
    (hstep : OrchStep db l db') (hwf : WFdb db) : WFdb db' := by
  cases hstep with
  | enqueue =>
      simp only [enqueue_missing_poe]
      split
      · exact hwf
      · exact enqueue_fold_wf _ _ hwf
  | submit push =>
      exact wf_of_frame db _ (submit_fold_frame push _ _) (submit_fold_next push _ _) hwf
  | verify ch rc =>
      exact wf_of_frame db _ (verify_fold_frame ch rc _ _) (verify_fold_next ch rc _ _) hwf

theorem orch_step_mem (db : DB) (l : StepLabel) (db' : DB)
    (hstep : OrchStep db l db') (hids : (db.rows.map Row.id).Nodup) :
    ∀ r ∈ db.rows,
      r ∈ db'.rows ∨
      (l = .submit ∧ r.status = "queued".data ∧
        ∃ tx, {r with status := "pending".data, tx_hash := some tx} ∈ db'.rows) ∨
      (l = .verify ∧ r.status = "pending".data ∧
        ((∃ b, {r with status := "confirmed".data, block_number := some b} ∈ db'.rows) ∨
          {r with status := "failed".data} ∈ db'.rows)) := by
  intro r hr
  cases hstep with
  | enqueue =>
      refine Or.inl ?_
      simp only [enqueue_missing_poe]
      split
      · exact hr
      · obtain ⟨ext, hext⟩ := enqueue_fold_rows_extend (scan_offchain db) (0, db)
        rw [hext]
        exact List.mem_append_left _ hr
  | submit push =>
      have huniq : ∀ x ∈ select_queued db, r.id = x.id → r = x := by
        intro x hx he
        exact List.inj_on_of_nodup_map hids hr (mem_select_queued db x hx).1 he
      rcases submit_fold_mem push (select_queued db) (0, db) r hr
          (select_queued_ids_nodup db hids)
          (fun x hx => (mem_select_queued db x hx).2) huniq with h | ⟨hq, tx, h⟩
      · exact Or.inl h
      · exact Or.inr (Or.inl ⟨rfl, hq, tx, h⟩)
  | verify ch rc =>
      have huniq : ∀ x ∈ select_pending db, r.id = x.id → r = x := by
        intro x hx he
        exact List.inj_on_of_nodup_map hids hr (mem_select_pending db x hx).1 he
      rcases verify_fold_mem ch rc (select_pending db) (0, db) r hr
          (select_pending_ids_nodup db hids)
          (fun x hx => (mem_select_pending db x hx).2) huniq with h | ⟨hp, h⟩
      · exact Or.inl h
      · exact Or.inr (Or.inr ⟨rfl, hp, h⟩)

theorem orch_step_terminal (db : DB) (l : StepLabel) (db' : DB)
    (hstep : OrchStep db l db') (hids : (db.rows.map Row.id).Nodup)
    (r : Row) (hr : r ∈ db.rows)
    (hterm : r.status = "confirmed".data ∨ r.status = "failed".data) : r ∈ db'.rows := by
  rcases orch_step_mem db l db' hstep hids r hr with h | ⟨_, hq, _⟩ | ⟨_, hp, _⟩
  · exact h
  · rcases hterm with ht | ht <;> rw [ht] at hq <;> cases hq
  · rcases hterm with ht | ht <;> rw [ht] at hp <;> cases hp

/-- C7: per reconciliation step, a `confirmed` or `failed` submission row is
never touched; a row that changes status was `queued` and became `pending`
with a recorded `tx_hash` — and only the `submit_queued` step does that — or
was `pending` and became `confirmed` (with a block number) or `failed` — and
only the receipt-verification step does that.  Consequently, along any
reachable sequence of reconciliation steps from a wellformed state, a
`confirmed`/`failed` row stays in the table unchanged, its status forever
terminal. -/
theorem claim_C7_state_machine (db : DB) (l : StepLabel) (db' : DB)
    (hstep : OrchStep db l db') (hwf : WFdb db) :
    (∀ r ∈ db.rows, (r.status = "confirmed".data ∨ r.status = "failed".data) →
       r ∈ db'.rows) ∧
    (∀ r ∈ db.rows,
       r ∈ db'.rows ∨
       (l = .submit ∧ r.status = "queued".data ∧
         ∃ tx, {r with status := "pending".data, tx_hash := some tx} ∈ db'.rows) ∨
       (l = .verify ∧ r.status = "pending".data ∧
         ((∃ b, {r with status := "confirmed".data, block_number := some b} ∈ db'.rows) ∨
           {r with status := "failed".data} ∈ db'.rows))) ∧
    (∀ db'', Relation.ReflTransGen (fun a b => ∃ m, OrchStep a m b) db db'' →
       ∀ r ∈ db.rows, (r.status = "confirmed".data ∨ r.status = "failed".data) →
         r ∈ db''.rows) := by
  refine ⟨fun r hr ht => orch_step_terminal db l db' hstep hwf.1 r hr ht,
          orch_step_mem db l db' hstep hwf.1, ?_⟩
  intro db'' hreach
  induction hreach with
  | refl => exact fun r hr ht => hr
  | tail hab hbc ih =>
      rename_i a b
      intro r hr ht
      obtain ⟨m, hm⟩ := hbc
      have hwfa : WFdb a := by
        clear ih hm
        induction hab with
        | refl => exact hwf
        | tail hxy hyz ih2 =>
            obtain ⟨m2, hm2⟩ := hyz
            exact orch_step_wf _ m2 _ hm2 ih2
      exact orch_step_terminal a m b hm hwfa.1 r (ih r hr ht) ht

/-- Witness for C7: a wellformed one-row database whose row is `confirmed`,
pushed through a `submit_queued` step — the row survives untouched. -/
theorem claim_C7_state_machine_witness :
    WFdb {emptyDB with
            rows := [{id := 1, status := "confirmed".data, created_at := 0}], nextId := 2} ∧
    ({id := 1, status := "confirmed".data, created_at := 0} : Row) ∈
      (submit_queued {emptyDB with
            rows := [{id := 1, status := "confirmed".data, created_at := 0}], nextId := 2}
        (fun _ => none)).2.rows := by
  have hwf : WFdb {emptyDB with
      rows := [{id := 1, status := "confirmed".data, created_at := 0}], nextId := 2} :=
    ⟨by decide, by decide⟩
  exact ⟨hwf,
    (claim_C7_state_machine _ .submit _ (OrchStep.submit _ (fun _ => none)) hwf).1 _
      (List.mem_singleton_self _) (Or.inl rfl)⟩

/-! Helper lemmas for the chain-linkage claim C1. -/

theorem lookup_setField_self (k : Str) (v : Json) (fs : List (Str × Json)) :
    lookupField k (setField k v fs) = some v := by
  induction fs with
  | nil => simp [setField, lookupField]
  | cons f fs ih =>
      simp only [setField]
      split
      · simp [lookupField]
      · split
        · simp [lookupField]
        · rename_i hlt hne
          simp only [lookupField]
          rw [if_neg hne]
          exact ih

theorem removeField_of_lookup_none (k : Str) (fs : List (Str × Json))
    (h : lookupField k fs = none) : removeField k fs = fs := by
  induction fs with
  | nil => rfl
  | cons f fs ih =>
      simp only [lookupField] at h
      by_cases hk : f.1 = k
      · rw [if_pos hk] at h
        cases h
      · rw [if_neg hk] at h
        simp only [removeField, if_neg hk]
        rw [ih h]

theorem remove_setField (k : Str) (v : Json) (fs : List (Str × Json))
    (h : lookupField k fs = none) : removeField k (setField k v fs) = fs := by
  induction fs with
  | nil => simp [setField, removeField]
  | cons f fs ih =>
      simp only [lookupField] at h
      by_cases hk : f.1 = k
      · rw [if_pos hk] at h
        cases h
      · rw [if_neg hk] at h
        simp only [setField]
        by_cases hlt : strLtB k f.1
        · rw [if_pos hlt]
          have h1 : removeField k ((k, v) :: f :: fs) = removeField k (f :: fs) := by
            simp [removeField]
          rw [h1]
          simp only [removeField, if_neg hk]
          rw [removeField_of_lookup_none k fs h]
        · rw [if_neg hlt, if_neg hk]
          simp only [removeField, if_neg hk]
          rw [ih h]

/-- One `append` call of the spec: the payload, content type, user id and
the stamped timestamp of one successful `add_to_ledger` invocation. -/
structure AppendCall where
  data : List (Str × Json)
  ct : Str
  uid : Option Json
  ts : Str

/-- Run a sequence of successful `add_to_ledger` calls one after another. -/
def apply_appends (db : DB) (calls : List AppendCall) : DB :=
  calls.foldl (fun db c => (add_to_ledger db c.data c.ct c.uid c.ts false false).2) db

/-- The rows a sequence of appends is expected to produce: the first links to
`prev` (absent when the ledger was empty), every later entry links to the
hash of its predecessor, and each hash is `chainHash(data, link, ts)`. -/
def chain_rows (prev : Option Str) (idn clk : Nat) : List AppendCall → List Row
  | [] => []
  | c :: cs =>
      let h := compute_chain_hash (.obj c.data) prev (.str c.ts)
      {id := idn, hash := some h, previous_hash := prev,
       block_data := some (.obj (setField hash_timestamp_key (.str c.ts) c.data)),
       content_type := some c.ct, user_id := c.uid, created_at := clk} ::
        chain_rows (some h) (idn + 1) (clk + 1) cs

/-- Rows strictly ordered by creation time (which makes the `(created_at, id)`
sort a no-op). -/
def SortedStrict (l : List Row) : Prop :=
  l.Chain' (fun a b => a.created_at < b.created_at)

theorem sortByKey_eq_self (l : List Row) (h : SortedStrict l) : sortByKey rowKey l = l := by
  induction l with
  | nil => rfl
  | cons x xs ih =>
      have htail : SortedStrict xs := h.tail
      simp only [sortByKey, ih htail]
      cases xs with
      | nil => rfl
      | cons y ys =>
          have hxy : x.created_at < y.created_at := List.chain'_cons.mp h |>.1
          simp only [insertByKey, keyLt, rowKey]
          rw [if_neg (by simp; omega)]



theorem chain_rows_created_ge (calls : List AppendCall) :
    ∀ prev idn clk r, r ∈ chain_rows prev idn clk calls → clk ≤ r.created_at := by
  induction calls with
  | nil => intro _ _ _ r hr; cases hr
  | cons c cs ih =>
      intro prev idn clk r hr
      rcases List.mem_cons.mp hr with rfl | hr2
      · exact Nat.le_refl _
      · exact Nat.le_of_succ_le (ih _ _ _ r hr2)

theorem chain_rows_sorted (calls : List AppendCall) :
    ∀ prev idn clk, SortedStrict (chain_rows prev idn clk calls) := by
  induction calls with
  | nil => intro _ _ _; exact List.chain'_nil
  | cons c cs ih =>
      intro prev idn clk
      simp only [chain_rows]
      rw [SortedStrict, List.chain'_cons']
      refine ⟨?_, ih _ _ _⟩
      intro y hy
      have hmem := List.mem_of_mem_head? hy
      have := chain_rows_created_ge cs _ _ _ y hmem
      simpa using Nat.lt_of_succ_le this

theorem chain_rows_length (calls : List AppendCall) :
    ∀ prev idn clk, (chain_rows prev idn clk calls).length = calls.length := by
  induction calls with
  | nil => intro _ _ _; rfl
  | cons c cs ih =>
      intro prev idn clk
      simp only [chain_rows, List.length_cons, ih]

theorem sorted_append_one (l : List Row) (r : Row) (hs : SortedStrict l)
    (hlt : ∀ q ∈ l, q.created_at < r.created_at) : SortedStrict (l ++ [r]) := by
  rw [SortedStrict, List.chain'_append]
  refine ⟨hs, List.chain'_singleton _, ?_⟩
  intro x hx y hy
  have hxm := List.mem_of_mem_getLast? hx
  simp only [List.head?_cons, Option.mem_def, Option.some.injEq] at hy
  subst hy
  exact hlt x hxm

theorem apply_appends_rows (calls : List AppendCall) :
    ∀ (db : DB), SortedStrict db.rows → (∀ r ∈ db.rows, r.created_at < db.clock) →
    (apply_appends db calls).rows =
      db.rows ++ chain_rows (get_last_ledger_hash db false) db.nextId db.clock calls := by
  induction calls with
  | nil => intro db _ _; simp [apply_appends, chain_rows]
  | cons c cs ih =>
      intro db hsorted hclk
      have hstep : (add_to_ledger db c.data c.ct c.uid c.ts false false).2 =
          {db with
             rows := db.rows ++
               [{id := db.nextId,
                 hash := some (compute_chain_hash (.obj c.data)
                   (get_last_ledger_hash db false) (.str c.ts)),
                 previous_hash := get_last_ledger_hash db false,
                 block_data := some (.obj (setField hash_timestamp_key (.str c.ts) c.data)),
                 content_type := some c.ct, user_id := c.uid,
                 created_at := db.clock}],
             nextId := db.nextId + 1, clock := db.clock + 1} := rfl
      have happly : apply_appends db (c :: cs) =
          apply_appends (add_to_ledger db c.data c.ct c.uid c.ts false false).2 cs := rfl
      set h := compute_chain_hash (.obj c.data) (get_last_ledger_hash db false) (.str c.ts)
        with hh
      set row : Row :=
        {id := db.nextId, hash := some h,
         previous_hash := get_last_ledger_hash db false,
         block_data := some (.obj (setField hash_timestamp_key (.str c.ts) c.data)),
         content_type := some c.ct, user_id := c.uid, created_at := db.clock} with hrow
      set db1 : DB := {db with rows := db.rows ++ [row], nextId := db.nextId + 1, clock := db.clock + 1} with hdb1
      have hsorted1 : SortedStrict db1.rows :=
        sorted_append_one db.rows row hsorted (fun q hq => hclk q hq)
      have hclk1 : ∀ r ∈ db1.rows, r.created_at < db1.clock := by
        intro r hr
        rcases List.mem_append.mp hr with hrl | hrr
        · exact Nat.lt_succ_of_lt (hclk r hrl)
        · simp only [List.mem_singleton] at hrr
          subst hrr
          exact Nat.lt_succ_self _
      have hlast1 : get_last_ledger_hash db1 false = some h := by
        simp only [get_last_ledger_hash, if_neg Bool.false_ne_true]
        rw [sortByKey_eq_self _ hsorted1]
        simp [hdb1, List.getLast?_concat, hrow]
      rw [happly, hstep, ih db1 hsorted1 hclk1, hlast1]
      simp only [chain_rows, hdb1, List.append_assoc, List.singleton_append]

theorem verify_loop_chain (calls : List AppendCall) :
    ∀ (now : Str) (prow : Option Row) (prev : Option Str) (idn clk : Nat),
    (match prow with
     | none => prev = none
     | some p => p.hash = prev) →
    (∀ c ∈ calls, lookupField hash_timestamp_key c.data = none) →
    verify_loop now prow (chain_rows prev idn clk calls) = (calls.length, []) := by
  induction calls with
  | nil => intro now prow prev idn clk _ _; cases prow <;> rfl
  | cons c cs ih =>
      intro now prow prev idn clk hlink hkeys
      have hkey : lookupField hash_timestamp_key c.data = none :=
        hkeys c (List.mem_cons_self _ _)
      simp only [chain_rows, verify_loop]
      have hcheck : ∀ r : Row, r.hash = some (compute_chain_hash (.obj c.data) prev (.str c.ts)) →
          r.previous_hash = prev →
          r.block_data = some (.obj (setField hash_timestamp_key (.str c.ts) c.data)) →
          entry_hash_check now r = (true, []) := by
        intro r hrh hrp hrb
        simp only [entry_hash_check, hrb, lookup_setField_self,
                   remove_setField _ _ _ hkey, hrp, hrh]
        simp
      rw [hcheck _ rfl rfl rfl]
      have hrec := ih now
        (some {id := idn, hash := some (compute_chain_hash (.obj c.data) prev (.str c.ts)), previous_hash := prev, block_data := some (.obj (setField hash_timestamp_key (.str c.ts) c.data)), content_type := some c.ct, user_id := c.uid, created_at := clk})
        (some (compute_chain_hash (.obj c.data) prev (.str c.ts))) (idn + 1) (clk + 1) rfl
        (fun x hx => hkeys x (List.mem_cons_of_mem _ hx))
      rw [hrec]
      cases prow with
      | none =>
          simp only at hlink
          simp [hlink, Nat.add_comm]
      | some p =>
          simp only at hlink
          simp [← hlink, Nat.add_comm]



/-- C1, amended: for every sequence of successful `add_to_ledger` calls
starting from an empty ledger whose payloads do not use the reserved key
`_hash_timestamp`, the resulting rows are exactly the expected hash chain —
the first entry has `previous_hash` absent and hash
`chainHash(data, null, T)` for its stamped timestamp `T`, and every later
entry's `previous_hash` is the preceding entry's hash — and
`verify_chain_integrity` reports `entries = N`, `verified = N` and an empty
`broken_links` list. -/
theorem claim_C1_chain_linkage (calls : List AppendCall) (now : Str)
    (hkeys : ∀ c ∈ calls, lookupField hash_timestamp_key c.data = none)
    (hne : calls ≠ []) :
    (apply_appends emptyDB calls).rows = chain_rows none 1 0 calls ∧
    BlockchainClient.verify_chain_integrity (apply_appends emptyDB calls) now false =
      {status := "success".data, entries := some calls.length, verified := some calls.length, broken_links := some [], integrity := some "valid".data} := by
  have hrows : (apply_appends emptyDB calls).rows = chain_rows none 1 0 calls := by
    have h := apply_appends_rows calls emptyDB List.chain'_nil (by intro r hr; cases hr)
    simpa [emptyDB, get_last_ledger_hash, sortByKey] using h
  refine ⟨hrows, ?_⟩
  simp only [BlockchainClient.verify_chain_integrity, if_neg Bool.false_ne_true]
  rw [hrows, sortByKey_eq_self _ (chain_rows_sorted calls none 1 0)]
  have hnonempty : (chain_rows none 1 0 calls).isEmpty = false := by
    cases calls with
    | nil => exact absurd rfl hne
    | cons c cs => rfl
  rw [hnonempty]
  simp only [Bool.false_eq_true, if_false]
  rw [verify_loop_chain calls now none none 1 0 rfl hkeys, chain_rows_length]
  simp

/-- C1, counterexample: a single append whose payload already contains the
reserved key `_hash_timestamp` — `add_to_ledger` hashes the original payload
but stores the payload with that key overwritten, so `verify_chain_integrity`
recomputes a different hash and reports a broken link: `brokenLinks` is not
empty even though every append completed successfully. -/
theorem claim_C1_counterexample :
    (BlockchainClient.verify_chain_integrity
        (apply_appends emptyDB
          [⟨[(BlockchainClient.hash_timestamp_key, Json.str "x".data)], "item".data, none,
            "2025-10-22T00:00:00+00:00".data⟩])
        "T".data false).entries = some 1 ∧
    (BlockchainClient.verify_chain_integrity
        (apply_appends emptyDB
          [⟨[(BlockchainClient.hash_timestamp_key, Json.str "x".data)], "item".data, none,
            "2025-10-22T00:00:00+00:00".data⟩])
        "T".data false).broken_links =
      some ["Block 1 hash verification failed".data] := by
  constructor
  · decide
  · decide

/-- Witness for C1 at a concrete two-append sequence. -/
theorem claim_C1_chain_linkage_witness :
    (∀ c ∈ ([⟨[("event".data, Json.str "x".data)], "item".data, none, "T1".data⟩,
             ⟨[], "item".data, none, "T2".data⟩] : List AppendCall),
        lookupField BlockchainClient.hash_timestamp_key c.data = none) ∧
    (BlockchainClient.verify_chain_integrity
        (apply_appends emptyDB
          [⟨[("event".data, Json.str "x".data)], "item".data, none, "T1".data⟩,
           ⟨[], "item".data, none, "T2".data⟩])
        "T".data false).broken_links = some [] := by
  have hk : ∀ c ∈ ([⟨[("event".data, Json.str "x".data)], "item".data, none, "T1".data⟩,
             ⟨[], "item".data, none, "T2".data⟩] : List AppendCall),
      lookupField BlockchainClient.hash_timestamp_key c.data = none := by
    intro c hc
    rcases List.mem_cons.mp hc with rfl | hc2
    · rfl
    · rcases List.mem_cons.mp hc2 with rfl | hc3
      · rfl
      · cases hc3
  refine ⟨hk, ?_⟩
  rw [(claim_C1_chain_linkage _ "T".data hk (List.cons_ne_nil _ _)).2]



/-! Helper lemmas for the verification-reporting claim C2. -/

namespace BlockchainClient

/-- The preceding-row accumulator after traversing `l` (the last element of
`l`, or the incoming accumulator when `l` is empty). -/
def prevOf (prow : Option Row) (l : List Row) : Option Row :=
  l.foldl (fun _ r => some r) prow

theorem prevOf_cons (prow : Option Row) (r : Row) (rest : List Row) :
    prevOf prow (r :: rest) = prevOf (some r) rest := rfl

theorem verify_loop_append (now : Str) (l₁ : List Row) :
    ∀ (prow : Option Row) (l₂ : List Row),
    verify_loop now prow (l₁ ++ l₂) =
      ((verify_loop now prow l₁).1 + (verify_loop now (prevOf prow l₁) l₂).1,
       (verify_loop now prow l₁).2 ++ (verify_loop now (prevOf prow l₁) l₂).2) := by
  induction l₁ with
  | nil =>
      intro prow l₂
      simp [verify_loop, prevOf]
  | cons r rest ih =>
      intro prow l₂
      rw [List.cons_append]
      simp only [verify_loop, ih (some r) l₂, prevOf_cons]
      rw [Prod.mk.injEq]
      constructor
      · omega
      · simp [List.append_assoc]

theorem entry_hash_check_msgs (now : Str) (r : Row) (m : Str)
    (hm : m ∈ (entry_hash_check now r).2) :
    m = hash_fail_msg r.id ∨ m = hash_err_msg r.id := by
  rcases hb : r.block_data with _ | bd
  · have heq : entry_hash_check now r = (false, [hash_err_msg r.id]) := by
      unfold entry_hash_check
      rw [hb]
    rw [heq] at hm
    exact Or.inr (List.mem_singleton.mp hm)
  · cases bd
    case obj parsed =>
      unfold entry_hash_check at hm
      rw [hb] at hm
      dsimp only at hm
      rw [apply_ite Prod.snd] at hm
      split at hm
      · exact Or.inl (List.mem_singleton.mp hm)
      · cases hm
    all_goals
      have heq : entry_hash_check now r = (false, [hash_err_msg r.id]) := by
        unfold entry_hash_check
        rw [hb]
      rw [heq] at hm
      exact Or.inr (List.mem_singleton.mp hm)

theorem genesis_msg_id (i : Nat) : natDigits i <:+: genesis_msg i :=
  ⟨"Genesis block ".data, " has unexpected previous_hash".data, by simp [genesis_msg]⟩

theorem link_msg_id (i : Nat) (e a : Option Str) : natDigits i <:+: link_msg i e a :=
  ⟨"Block ".data,
   " previous_hash mismatch: expected ".data ++ showOptStr e ++ ", got ".data ++ showOptStr a,
   by simp [link_msg]⟩

theorem link_msg_expected (i : Nat) (e a : Option Str) : showOptStr e <:+: link_msg i e a :=
  ⟨"Block ".data ++ natDigits i ++ " previous_hash mismatch: expected ".data,
   ", got ".data ++ showOptStr a, by simp [link_msg]⟩

theorem link_msg_actual (i : Nat) (e a : Option Str) : showOptStr a <:+: link_msg i e a :=
  ⟨"Block ".data ++ natDigits i ++ " previous_hash mismatch: expected ".data ++
     showOptStr e ++ ", got ".data, [], by simp [link_msg]⟩

theorem hash_fail_msg_id (i : Nat) : natDigits i <:+: hash_fail_msg i :=
  ⟨"Block ".data, " hash verification failed".data, by simp [hash_fail_msg]⟩

theorem hash_err_msg_id (i : Nat) : natDigits i <:+: hash_err_msg i :=
  ⟨"Block ".data, " hash computation error".data, by simp [hash_err_msg]⟩

theorem verify_loop_msg_shapes (now : Str) (l : List Row) :
    ∀ (prow : Option Row) (m : Str), m ∈ (verify_loop now prow l).2 →
    ∃ r ∈ l,
      (m = genesis_msg r.id ∨ (∃ e a, m = link_msg r.id e a) ∨
       m = hash_fail_msg r.id ∨ m = hash_err_msg r.id) ∧
      natDigits r.id <:+: m := by
  induction l with
  | nil => intro prow m hm; cases hm
  | cons r rest ih =>
      intro prow m hm
      simp only [verify_loop, List.mem_append] at hm
      rcases hm with (hm | hm) | hm
      · refine ⟨r, List.mem_cons_self _ _, ?_⟩
        cases prow with
        | none =>
            dsimp only at hm
            split at hm
            · simp only [List.mem_singleton] at hm
              subst hm
              exact ⟨Or.inl rfl, genesis_msg_id r.id⟩
            · cases hm
        | some p =>
            dsimp only at hm
            split at hm
            · simp only [List.mem_singleton] at hm
              subst hm
              exact ⟨Or.inr (Or.inl ⟨p.hash, r.previous_hash, rfl⟩), link_msg_id r.id _ _⟩
            · cases hm
      · refine ⟨r, List.mem_cons_self _ _, ?_⟩
        rcases entry_hash_check_msgs now r m hm with h | h
        · exact ⟨Or.inr (Or.inr (Or.inl h)), h ▸ hash_fail_msg_id r.id⟩
        · exact ⟨Or.inr (Or.inr (Or.inr h)), h ▸ hash_err_msg_id r.id⟩
      · obtain ⟨q, hq, hqm⟩ := ih (some r) m hm
        exact ⟨q, List.mem_cons_of_mem _ hq, hqm⟩

end BlockchainClient



theorem sortByKey_isEmpty_nil (l : List Row) (h : (sortByKey rowKey l).isEmpty = true) :
    l = [] := by
  rw [List.isEmpty_iff] at h
  have hp := sortByKey_perm rowKey l
  rw [h] at hp
  exact hp.symm.eq_nil

/-- C2, counterexample: a tampered entry whose stored hash is `deadbeef`
produces the broken-link message `Block 1 hash verification failed`, which
names the entry id but contains neither the expected (recomputed) nor the
actual (`deadbeef`) hash value — the claim that every message identifies the
expected versus actual value fails for hash violations. -/
theorem claim_C2_counterexample :
    (BlockchainClient.verify_chain_integrity
        {emptyDB with rows := [{id := 1, hash := some "deadbeef".data, block_data := some (Json.obj []), created_at := 0}]}
        "T".data false).broken_links =
      some ["Block 1 hash verification failed".data] ∧
    ¬ ("deadbeef".data <:+: "Block 1 hash verification failed".data) := by
  constructor
  · decide
  · decide

/-- C2, amended: `verify_chain_integrity` never raises for data-level
integrity problems — the exception-shaped result (an `error` key) never
occurs and a non-empty ledger always gets a `broken_links` report; the loop
walks the `(created_at, id)`-ordered entries to the end, the report of any
concatenation of entry runs being the concatenation of their reports (so a
violation never stops the scan); and every reported message names the
offending entry id — link-mismatch messages also carry the expected and
actual values, while hash-verification and computation-error messages name
only the id. -/
theorem claim_C2_verify_reporting (db : DB) (now : Str) :
    (BlockchainClient.verify_chain_integrity db now false).error = none ∧
    (db.rows ≠ [] →
      (BlockchainClient.verify_chain_integrity db now false).broken_links ≠ none) ∧
    (∀ (prow : Option Row) (l₁ l₂ : List Row),
      BlockchainClient.verify_loop now prow (l₁ ++ l₂) =
        ((BlockchainClient.verify_loop now prow l₁).1 +
           (BlockchainClient.verify_loop now (BlockchainClient.prevOf prow l₁) l₂).1,
         (BlockchainClient.verify_loop now prow l₁).2 ++
           (BlockchainClient.verify_loop now (BlockchainClient.prevOf prow l₁) l₂).2)) ∧
    (∀ m ∈ ((BlockchainClient.verify_chain_integrity db now false).broken_links.getD []),
      ∃ r ∈ db.rows,
        natDigits r.id <:+: m ∧
        (m = BlockchainClient.genesis_msg r.id ∨
         (∃ e a, m = BlockchainClient.link_msg r.id e a ∧
            BlockchainClient.showOptStr e <:+: m ∧ BlockchainClient.showOptStr a <:+: m) ∨
         m = BlockchainClient.hash_fail_msg r.id ∨
         m = BlockchainClient.hash_err_msg r.id)) := by
  refine ⟨?_, ?_, ?_, ?_⟩
  · simp only [BlockchainClient.verify_chain_integrity, if_neg Bool.false_ne_true]
    split
    · rfl
    · rfl
  · intro hne
    simp only [BlockchainClient.verify_chain_integrity, if_neg Bool.false_ne_true]
    split
    · rename_i hempty
      exact absurd (sortByKey_isEmpty_nil _ hempty) hne
    · simp
  · intro prow l₁ l₂
    exact BlockchainClient.verify_loop_append now l₁ prow l₂
  · intro m hm
    simp only [BlockchainClient.verify_chain_integrity, if_neg Bool.false_ne_true] at hm
    split at hm
    · cases hm
    · simp only [Option.getD_some] at hm
      obtain ⟨r, hr, hshape, hinfix⟩ :=
        BlockchainClient.verify_loop_msg_shapes now _ none m hm
      refine ⟨r, (sortByKey_perm rowKey db.rows).mem_iff.mp hr, hinfix, ?_⟩
      rcases hshape with h | ⟨e, a, h⟩ | h | h
      · exact Or.inl h
      · subst h
        exact Or.inr (Or.inl ⟨e, a, rfl, BlockchainClient.link_msg_expected r.id e a,
          BlockchainClient.link_msg_actual r.id e a⟩)
      · exact Or.inr (Or.inr (Or.inl h))
      · exact Or.inr (Or.inr (Or.inr h))

/-- Witness for C2 at a concrete one-row ledger. -/
theorem claim_C2_verify_reporting_witness :
    (BlockchainClient.verify_chain_integrity
        {emptyDB with rows := [{id := 1, hash := some "deadbeef".data, block_data := some (Json.obj []), created_at := 0}]}
        "T".data false).error = none ∧
    (BlockchainClient.verify_chain_integrity
        {emptyDB with rows := [{id := 1, hash := some "deadbeef".data, block_data := some (Json.obj []), created_at := 0}]}
        "T".data false).broken_links ≠ none :=
  ⟨(claim_C2_verify_reporting _ "T".data).1,
   (claim_C2_verify_reporting _ "T".data).2.1 (List.cons_ne_nil _ _)⟩



/-! Helper lemmas for the hash-determinism claim C6: the canonical
serialization is injective, so `chainHash` feeds distinct digest inputs to
SHA-256 for distinct canonical arguments. -/

/-- Decimal-digit test on a character. -/
def isDigitB (c : Char) : Bool := 48 ≤ c.toNat && c.toNat ≤ 57

/-- Value of a digit string, most significant first. -/
def digitsVal (l : List Char) : Nat := l.foldl (fun a c => 10 * a + (c.toNat - 48)) 0

theorem digit_char_toNat (k : Nat) (hk : k < 10) : (Char.ofNat (48 + k)).toNat = 48 + k := by
  interval_cases k <;> decide

theorem digit_char_isDigit (k : Nat) (hk : k < 10) : isDigitB (Char.ofNat (48 + k)) = true := by
  interval_cases k <;> decide

theorem natDigitsAux_val (fuel : Nat) :
    ∀ n a, n ≤ fuel →
      (natDigitsAux fuel n).foldl (fun a c => 10 * a + (c.toNat - 48)) a =
        a * 10 ^ (natDigitsAux fuel n).length + n := by
  induction fuel with
  | zero =>
      intro n a hn
      interval_cases n
      simp [natDigitsAux]
  | succ fuel ih =>
      intro n a hn
      by_cases h0 : n = 0
      · simp [natDigitsAux, h0]
      · have hdiv : n / 10 ≤ fuel := by omega
        simp only [natDigitsAux, if_neg h0, List.foldl_append, List.foldl_cons, List.foldl_nil,
          List.length_append, List.length_cons, List.length_nil]
        rw [ih (n / 10) a hdiv, digit_char_toNat (n % 10) (Nat.mod_lt _ (by omega)), pow_succ,
          ← mul_assoc]
        generalize a * 10 ^ (natDigitsAux fuel (n / 10)).length = Y
        omega

theorem digitsVal_natDigits (n : Nat) : digitsVal (natDigits n) = n := by
  by_cases h0 : n = 0
  · simp [natDigits, h0, digitsVal]
  · unfold natDigits digitsVal
    rw [if_neg h0, natDigitsAux_val n n 0 (Nat.le_refl n)]
    simp

theorem natDigitsAux_digits (fuel : Nat) :
    ∀ n c, c ∈ natDigitsAux fuel n → isDigitB c = true := by
  induction fuel with
  | zero => intro n c hc; cases hc
  | succ fuel ih =>
      intro n c hc
      by_cases h0 : n = 0
      · rw [natDigitsAux, if_pos h0] at hc
        cases hc
      · rw [natDigitsAux, if_neg h0] at hc
        rcases List.mem_append.mp hc with h | h
        · exact ih _ c h
        · rw [List.mem_singleton] at h
          subst h
          exact digit_char_isDigit _ (Nat.mod_lt _ (by omega))

theorem natDigits_digits (n : Nat) (c : Char) (hc : c ∈ natDigits n) : isDigitB c = true := by
  unfold natDigits at hc
  split at hc
  · rw [List.mem_singleton] at hc
    subst hc
    decide
  · exact natDigitsAux_digits n n c hc

theorem natDigits_ne_nil (n : Nat) : natDigits n ≠ [] := by
  unfold natDigits
  split
  · exact List.cons_ne_nil _ _
  · rename_i h0
    cases n with
    | zero => exact absurd rfl h0
    | succ m =>
        simp only [natDigitsAux]
        rw [if_neg h0]
        intro hcon
        exact absurd (List.append_eq_nil.mp hcon).2 (List.cons_ne_nil _ _)

/-- The rest after a serialized token must not begin with a digit. -/
def NonDigitHead (l : List Char) : Prop := ∀ c, l.head? = some c → isDigitB c = false

theorem nonDigitHead_nil : NonDigitHead [] := by
  intro c hc
  cases hc

theorem nonDigitHead_cons (c : Char) (l : List Char) (hc : isDigitB c = false) :
    NonDigitHead (c :: l) := by
  intro d hd
  cases hd
  exact hc

theorem takeWhile_digits (l₁ : List Char) :
    ∀ r, (∀ c ∈ l₁, isDigitB c = true) → NonDigitHead r →
      (l₁ ++ r).takeWhile isDigitB = l₁ ∧ (l₁ ++ r).dropWhile isDigitB = r := by
  induction l₁ with
  | nil =>
      intro r _ hr
      cases r with
      | nil => exact ⟨rfl, rfl⟩
      | cons c cs =>
          have := hr c rfl
          simp [List.takeWhile, List.dropWhile, this]
  | cons c cs ih =>
      intro r hall hr
      have hc : isDigitB c = true := hall c (List.mem_cons_self _ _)
      obtain ⟨h1, h2⟩ := ih r (fun d hd => hall d (List.mem_cons_of_mem _ hd)) hr
      simp [List.takeWhile, List.dropWhile, hc, h1, h2]

theorem digits_det (m n : Nat) (r s : List Char) (hr : NonDigitHead r) (hs : NonDigitHead s)
    (h : natDigits m ++ r = natDigits n ++ s) : m = n ∧ r = s := by
  obtain ⟨ht₁, hd₁⟩ := takeWhile_digits (natDigits m) r (fun c hc => natDigits_digits m c hc) hr
  obtain ⟨ht₂, hd₂⟩ := takeWhile_digits (natDigits n) s (fun c hc => natDigits_digits n c hc) hs
  have hdig : natDigits m = natDigits n := by rw [← ht₁, ← ht₂, h]
  have hmn : m = n := by
    have := congrArg digitsVal hdig
    rwa [digitsVal_natDigits, digitsVal_natDigits] at this
  refine ⟨hmn, ?_⟩
  rw [← hd₁, ← hd₂, h]

theorem natDigits_head_digit (n : Nat) (c : Char) (t : List Char)
    (h : natDigits n = c :: t) : isDigitB c = true :=
  natDigits_digits n c (h ▸ List.mem_cons_self c t)

theorem serInt_head (i : Int) :
    ∃ c t, serInt i = c :: t ∧ (c.toNat = 45 ∨ (48 ≤ c.toNat ∧ c.toNat ≤ 57)) := by
  unfold serInt
  split
  · exact ⟨'-', natDigits i.natAbs, rfl, Or.inl rfl⟩
  · rcases hd : natDigits i.toNat with _ | ⟨c, t⟩
    · exact absurd hd (natDigits_ne_nil _)
    · refine ⟨c, t, rfl, Or.inr ?_⟩
      have := natDigits_head_digit _ _ _ hd
      unfold isDigitB at this
      simp only [Bool.and_eq_true, decide_eq_true_eq] at this
      exact this

theorem serInt_det (i j : Int) (r s : List Char) (hr : NonDigitHead r) (hs : NonDigitHead s)
    (h : serInt i ++ r = serInt j ++ s) : i = j ∧ r = s := by
  unfold serInt at h
  by_cases hi : i < 0 <;> by_cases hj : j < 0
  · rw [if_pos hi, if_pos hj, List.cons_append, List.cons_append] at h
    injection h with h1 h2
    obtain ⟨hv, hrs⟩ := digits_det _ _ _ _ hr hs h2
    refine ⟨?_, hrs⟩
    omega
  · rw [if_pos hi, if_neg hj, List.cons_append] at h
    obtain ⟨c, t, he, hc⟩ := serInt_head j
    unfold serInt at he
    rw [if_neg hj] at he
    rw [he, List.cons_append] at h
    injection h with h1 _
    have : isDigitB c = true := natDigits_head_digit _ _ _ he
    unfold isDigitB at this
    simp only [Bool.and_eq_true, decide_eq_true_eq] at this
    rw [← h1] at this
    simp at this
  · rw [if_neg hi, if_pos hj, List.cons_append] at h
    rcases hd : natDigits i.toNat with _ | ⟨c, t⟩
    · exact absurd hd (natDigits_ne_nil _)
    · rw [hd, List.cons_append] at h
      injection h with h1 _
      have : isDigitB c = true := natDigits_head_digit _ _ _ hd
      unfold isDigitB at this
      simp only [Bool.and_eq_true, decide_eq_true_eq] at this
      rw [h1] at this
      simp at this
  · rw [if_neg hi, if_neg hj] at h
    obtain ⟨hv, hrs⟩ := digits_det _ _ _ _ hr hs h
    refine ⟨?_, hrs⟩
    omega



theorem char_eq_of_toNat_eq {c d : Char} (h : c.toNat = d.toNat) : c = d :=
  Char.ext (UInt32.ext h)

theorem char_range (c : Char) : c.toNat < 55296 ∨ (57343 < c.toNat ∧ c.toNat < 1114112) := by
  have h := c.valid
  simp only [UInt32.isValidChar, Nat.isValidChar] at h
  rcases h with h | ⟨h1, h2⟩
  · exact Or.inl h
  · exact Or.inr ⟨h1, h2⟩

theorem hexDigit_inj : ∀ a < 16, ∀ b < 16, hexDigit a = hexDigit b → a = b := by decide

theorem hex4_det (a b : Nat) (z₁ z₂ : List Char) (ha : a < 65536) (hb : b < 65536)
    (h : hex4 a ++ z₁ = hex4 b ++ z₂) : a = b ∧ z₁ = z₂ := by
  simp only [hex4, List.cons_append, List.nil_append] at h
  injection h with e1 h
  injection h with e2 h
  injection h with e3 h
  injection h with e4 h
  have n1 := hexDigit_inj _ (Nat.mod_lt _ (by omega)) _ (Nat.mod_lt _ (by omega)) e1
  have n2 := hexDigit_inj _ (Nat.mod_lt _ (by omega)) _ (Nat.mod_lt _ (by omega)) e2
  have n3 := hexDigit_inj _ (Nat.mod_lt _ (by omega)) _ (Nat.mod_lt _ (by omega)) e3
  have n4 := hexDigit_inj _ (Nat.mod_lt _ (by omega)) _ (Nat.mod_lt _ (by omega)) e4
  exact ⟨by omega, h⟩

/-- Which two-character escape a character gets, on the code-point plane. -/
def tagSpec (a b : Nat) : Prop :=
  (a = 34 ∧ b = 34) ∨ (a = 92 ∧ b = 92) ∨ (a = 8 ∧ b = 98) ∨ (a = 9 ∧ b = 116) ∨
  (a = 10 ∧ b = 110) ∨ (a = 12 ∧ b = 102) ∨ (a = 13 ∧ b = 114)

theorem escChar_shape (c : Char) :
    (escChar c = [c] ∧ c.toNat ≠ 92 ∧ c.toNat ≠ 34 ∧ 32 ≤ c.toNat ∧ c.toNat ≤ 126) ∨
    (∃ t, escChar c = ['\\', t] ∧ tagSpec c.toNat t.toNat) ∨
    (escChar c = '\\' :: 'u' :: hex4 c.toNat ∧ c.toNat < 65536) ∨
    (escChar c = '\\' :: 'u' :: hex4 (55296 + (c.toNat - 65536) / 1024) ++
       '\\' :: 'u' :: hex4 (56320 + (c.toNat - 65536) % 1024) ∧ 65536 ≤ c.toNat) := by
  by_cases h1 : c = '"'
  · exact Or.inr (Or.inl ⟨'"', (by unfold escChar; rw [if_pos h1]),
      Or.inl ⟨(by rw [h1]; decide), rfl⟩⟩)
  by_cases h2 : c = '\\'
  · exact Or.inr (Or.inl ⟨'\\', (by unfold escChar; rw [if_neg h1, if_pos h2]),
      Or.inr (Or.inl ⟨(by rw [h2]; decide), rfl⟩)⟩)
  by_cases h3 : c.toNat = 8
  · exact Or.inr (Or.inl ⟨'b', (by unfold escChar; rw [if_neg h1, if_neg h2, if_pos h3]),
      Or.inr (Or.inr (Or.inl ⟨h3, rfl⟩))⟩)
  by_cases h4 : c.toNat = 9
  · exact Or.inr (Or.inl ⟨'t',
      (by unfold escChar; rw [if_neg h1, if_neg h2, if_neg h3, if_pos h4]),
      Or.inr (Or.inr (Or.inr (Or.inl ⟨h4, rfl⟩)))⟩)
  by_cases h5 : c.toNat = 10
  · exact Or.inr (Or.inl ⟨'n',
      (by unfold escChar; rw [if_neg h1, if_neg h2, if_neg h3, if_neg h4, if_pos h5]),
      Or.inr (Or.inr (Or.inr (Or.inr (Or.inl ⟨h5, rfl⟩))))⟩)
  by_cases h6 : c.toNat = 12
  · exact Or.inr (Or.inl ⟨'f',
      (by unfold escChar; rw [if_neg h1, if_neg h2, if_neg h3, if_neg h4, if_neg h5, if_pos h6]),
      Or.inr (Or.inr (Or.inr (Or.inr (Or.inr (Or.inl ⟨h6, rfl⟩)))))⟩)
  by_cases h7 : c.toNat = 13
  · exact Or.inr (Or.inl ⟨'r',
      (by unfold escChar; rw [if_neg h1, if_neg h2, if_neg h3, if_neg h4, if_neg h5, if_neg h6, if_pos h7]),
      Or.inr (Or.inr (Or.inr (Or.inr (Or.inr (Or.inr ⟨h7, rfl⟩)))))⟩)
  by_cases h8 : 32 ≤ c.toNat ∧ c.toNat ≤ 126
  · refine Or.inl ⟨(by unfold escChar; rw [if_neg h1, if_neg h2, if_neg h3, if_neg h4, if_neg h5, if_neg h6, if_neg h7, if_pos h8]), ?_, ?_, h8.1, h8.2⟩
    · intro hc
      exact h2 (char_eq_of_toNat_eq (by rw [hc]; decide))
    · intro hc
      exact h1 (char_eq_of_toNat_eq (by rw [hc]; decide))
  by_cases h9 : c.toNat < 65536
  · exact Or.inr (Or.inr (Or.inl ⟨(by unfold escChar; rw [if_neg h1, if_neg h2, if_neg h3, if_neg h4, if_neg h5, if_neg h6, if_neg h7, if_neg h8, if_pos h9]), h9⟩))
  · exact Or.inr (Or.inr (Or.inr ⟨(by unfold escChar; rw [if_neg h1, if_neg h2, if_neg h3, if_neg h4, if_neg h5, if_neg h6, if_neg h7, if_neg h8, if_neg h9]), (by omega)⟩))

theorem escChar_det (c₁ c₂ : Char) (x y : List Char)
    (h : escChar c₁ ++ x = escChar c₂ ++ y) : c₁ = c₂ ∧ x = y := by
  have hr₁ := char_range c₁
  have hr₂ := char_range c₂
  rcases escChar_shape c₁ with ⟨e₁, hne92, hne34, hlo₁, hhi₁⟩ | ⟨t₁, e₁, ht₁⟩ |
      ⟨e₁, hlt₁⟩ | ⟨e₁, hge₁⟩ <;>
    rcases escChar_shape c₂ with ⟨e₂, hne92b, hne34b, hlo₂, hhi₂⟩ | ⟨t₂, e₂, ht₂⟩ |
      ⟨e₂, hlt₂⟩ | ⟨e₂, hge₂⟩ <;>
    rw [e₁, e₂] at h <;>
    simp only [List.cons_append, List.singleton_append, List.append_assoc, List.nil_append] at h
  · injection h with h1 h2
    exact ⟨h1, h2⟩
  · injection h with h1 _
    exact absurd (show c₁.toNat = 92 by rw [h1]; decide) hne92
  · injection h with h1 _
    exact absurd (show c₁.toNat = 92 by rw [h1]; decide) hne92
  · injection h with h1 _
    exact absurd (show c₁.toNat = 92 by rw [h1]; decide) hne92
  · injection h with h1 _
    exact absurd (show c₂.toNat = 92 by rw [← h1]; decide) hne92b
  · injection h with _ h
    injection h with h2 h3
    have htag := congrArg Char.toNat h2
    rcases ht₁ with ⟨a1, b1⟩ | ⟨a1, b1⟩ | ⟨a1, b1⟩ | ⟨a1, b1⟩ | ⟨a1, b1⟩ | ⟨a1, b1⟩ | ⟨a1, b1⟩ <;>
      rcases ht₂ with ⟨a2, b2⟩ | ⟨a2, b2⟩ | ⟨a2, b2⟩ | ⟨a2, b2⟩ | ⟨a2, b2⟩ | ⟨a2, b2⟩ |
        ⟨a2, b2⟩ <;>
      exact ⟨char_eq_of_toNat_eq (by omega), h3⟩
  · injection h with _ h
    injection h with h2 _
    have htag := congrArg Char.toNat h2
    have hu : Char.toNat 'u' = 117 := rfl
    rcases ht₁ with ⟨a1, b1⟩ | ⟨a1, b1⟩ | ⟨a1, b1⟩ | ⟨a1, b1⟩ | ⟨a1, b1⟩ | ⟨a1, b1⟩ |
        ⟨a1, b1⟩ <;> omega
  · injection h with _ h
    injection h with h2 _
    have htag := congrArg Char.toNat h2
    have hu : Char.toNat 'u' = 117 := rfl
    rcases ht₁ with ⟨a1, b1⟩ | ⟨a1, b1⟩ | ⟨a1, b1⟩ | ⟨a1, b1⟩ | ⟨a1, b1⟩ | ⟨a1, b1⟩ |
        ⟨a1, b1⟩ <;> omega
  · injection h with h1 _
    exact absurd (show c₂.toNat = 92 by rw [← h1]; decide) hne92b
  · injection h with _ h
    injection h with h2 _
    have htag := congrArg Char.toNat h2.symm
    have hu : Char.toNat 'u' = 117 := rfl
    rcases ht₂ with ⟨a2, b2⟩ | ⟨a2, b2⟩ | ⟨a2, b2⟩ | ⟨a2, b2⟩ | ⟨a2, b2⟩ | ⟨a2, b2⟩ |
        ⟨a2, b2⟩ <;> omega
  · injection h with _ h
    injection h with _ h
    obtain ⟨hn, hxy⟩ := hex4_det _ _ _ _ hlt₁ hlt₂ h
    exact ⟨char_eq_of_toNat_eq hn, hxy⟩
  · injection h with _ h
    injection h with _ h
    obtain ⟨hn, _⟩ := hex4_det _ _ _ _ hlt₁ (by omega) h
    exact absurd hn (by omega)
  · injection h with h1 _
    exact absurd (show c₂.toNat = 92 by rw [← h1]; decide) hne92b
  · injection h with _ h
    injection h with h2 _
    have htag := congrArg Char.toNat h2.symm
    have hu : Char.toNat 'u' = 117 := rfl
    rcases ht₂ with ⟨a2, b2⟩ | ⟨a2, b2⟩ | ⟨a2, b2⟩ | ⟨a2, b2⟩ | ⟨a2, b2⟩ | ⟨a2, b2⟩ |
        ⟨a2, b2⟩ <;> omega
  · injection h with _ h
    injection h with _ h
    obtain ⟨hn, _⟩ := hex4_det _ _ _ _ (by omega) hlt₂ h
    exact absurd hn (by omega)
  · injection h with _ h
    injection h with _ h
    obtain ⟨hhi, h⟩ := hex4_det _ _ _ _ (by omega) (by omega) h
    injection h with _ h
    injection h with _ h
    obtain ⟨hlo, hxy⟩ := hex4_det _ _ _ _ (by omega) (by omega) h
    exact ⟨char_eq_of_toNat_eq (by omega), hxy⟩


theorem escChar_head (c : Char) : ∃ d t, escChar c = d :: t ∧ d.toNat ≠ 34 := by
  rcases escChar_shape c with ⟨e, _, h34, _, _⟩ | ⟨t, e, _⟩ | ⟨e, _⟩ | ⟨e, _⟩
  · exact ⟨c, [], e, h34⟩
  · exact ⟨'\\', [t], e, by decide⟩
  · exact ⟨'\\', 'u' :: hex4 c.toNat, e, by decide⟩
  · refine ⟨'\\', 'u' :: (hex4 (55296 + (c.toNat - 65536) / 1024) ++
      '\\' :: 'u' :: hex4 (56320 + (c.toNat - 65536) % 1024)), ?_, by decide⟩
    rw [e]
    simp [List.cons_append]

theorem escStr_det : ∀ (s₁ s₂ x y : List Char),
    escStr s₁ ++ '"' :: x = escStr s₂ ++ '"' :: y → s₁ = s₂ ∧ x = y := by
  intro s₁
  induction s₁ with
  | nil =>
    intro s₂ x y h
    cases s₂ with
    | nil =>
      simp only [escStr, List.nil_append] at h
      injection h with _ h
      exact ⟨rfl, h⟩
    | cons c cs =>
      simp only [escStr, List.nil_append, List.append_assoc] at h
      obtain ⟨d, t, he, hd⟩ := escChar_head c
      rw [he, List.cons_append] at h
      injection h with h1 _
      have : d.toNat = 34 := by rw [← h1]; decide
      exact absurd this hd
  | cons c cs ih =>
    intro s₂ x y h
    cases s₂ with
    | nil =>
      simp only [escStr, List.nil_append, List.append_assoc] at h
      obtain ⟨d, t, he, hd⟩ := escChar_head c
      rw [he, List.cons_append] at h
      injection h with h1 _
      have : d.toNat = 34 := by rw [h1]; decide
      exact absurd this hd
    | cons c' cs' =>
      simp only [escStr, List.append_assoc] at h
      obtain ⟨hc, ht⟩ := escChar_det c c' _ _ h
      obtain ⟨hcs, hxy⟩ := ih cs' x y ht
      exact ⟨by rw [hc, hcs], hxy⟩

/-- The head of the remaining-array-items serialization, followed by the
closing bracket, is `','` or `']'` — never a digit.  This is the guard under
which a serialized number can be read back unambiguously. -/
theorem serTail_nonDigitHead (l : List Json) (x : List Char) :
    NonDigitHead (serTail l ++ ']' :: x) := by
  cases l with
  | nil =>
    simp only [serTail, List.nil_append]
    exact nonDigitHead_cons _ _ (by decide)
  | cons a as =>
    simp only [serTail, List.cons_append, List.append_assoc]
    exact nonDigitHead_cons _ _ (by decide)

theorem serFields_nonDigitHead (l : List (Str × Json)) (x : List Char) :
    NonDigitHead (serFields l ++ rbrace :: x) := by
  cases l with
  | nil =>
    simp only [serFields, List.nil_append]
    exact nonDigitHead_cons _ _ (by decide)
  | cons f fs =>
    simp only [serFields, List.cons_append, List.append_assoc]
    exact nonDigitHead_cons _ _ (by decide)

/-- Constructor discriminant of a JSON value. -/
def classOf : Json → Nat
  | .null => 0
  | .bool _ => 1
  | .num _ => 2
  | .str _ => 3
  | .arr _ => 4
  | .obj _ => 5

/-- The first serialized character of each constructor class. -/
def headOK (k n : Nat) : Prop :=
  (k = 0 ∧ n = 110) ∨ (k = 1 ∧ (n = 116 ∨ n = 102)) ∨
  (k = 2 ∧ (n = 45 ∨ (48 ≤ n ∧ n ≤ 57))) ∨ (k = 3 ∧ n = 34) ∨
  (k = 4 ∧ n = 91) ∨ (k = 5 ∧ n = 123)

theorem ser_head_class (j : Json) : ∃ c t, serJson j = c :: t ∧ headOK (classOf j) c.toNat := by
  cases j with
  | null => exact ⟨'n', _, rfl, Or.inl ⟨rfl, by decide⟩⟩
  | bool b =>
    cases b with
    | true => exact ⟨'t', _, rfl, Or.inr (Or.inl ⟨rfl, Or.inl (by decide)⟩)⟩
    | false => exact ⟨'f', _, rfl, Or.inr (Or.inl ⟨rfl, Or.inr (by decide)⟩)⟩
  | num i =>
    obtain ⟨c, t, he, hc⟩ := serInt_head i
    exact ⟨c, t, by simp only [serJson]; exact he, Or.inr (Or.inr (Or.inl ⟨rfl, hc⟩))⟩
  | str s =>
    exact ⟨'"', escStr s ++ ['"'], by simp only [serJson, List.cons_append],
      Or.inr (Or.inr (Or.inr (Or.inl ⟨rfl, by decide⟩)))⟩
  | arr l =>
    cases l with
    | nil => exact ⟨'[', _, rfl, Or.inr (Or.inr (Or.inr (Or.inr (Or.inl ⟨rfl, by decide⟩))))⟩
    | cons a as =>
      exact ⟨'[', _, rfl, Or.inr (Or.inr (Or.inr (Or.inr (Or.inl ⟨rfl, by decide⟩))))⟩
  | obj l =>
    cases l with
    | nil =>
      exact ⟨lbrace, _, rfl, Or.inr (Or.inr (Or.inr (Or.inr (Or.inr ⟨rfl, by decide⟩))))⟩
    | cons f fs =>
      exact ⟨lbrace, _, rfl, Or.inr (Or.inr (Or.inr (Or.inr (Or.inr ⟨rfl, by decide⟩))))⟩

/-- `json.dumps` output is prefix-determined: a serialized value followed by
a non-digit determines the value and the remainder, and likewise for item
and field tails up to their closing delimiter.  Proved by strong induction
on the size of the first serialized value. -/
theorem ser_det_all : ∀ n : Nat,
    (∀ (j₁ j₂ : Json) (x y : List Char), sizeOf j₁ < n →
       NonDigitHead x → NonDigitHead y →
       serJson j₁ ++ x = serJson j₂ ++ y → j₁ = j₂ ∧ x = y) ∧
    (∀ (l₁ l₂ : List Json) (x y : List Char), sizeOf l₁ < n →
       serTail l₁ ++ ']' :: x = serTail l₂ ++ ']' :: y → l₁ = l₂ ∧ x = y) ∧
    (∀ (f₁ f₂ : List (Str × Json)) (x y : List Char), sizeOf f₁ < n →
       serFields f₁ ++ rbrace :: x = serFields f₂ ++ rbrace :: y → f₁ = f₂ ∧ x = y) := by
  intro n
  induction n with
  | zero =>
    refine ⟨?_, ?_, ?_⟩
    · intro j₁ _ _ _ hlt
      exact absurd hlt (Nat.not_lt_zero _)
    · intro l₁ _ _ _ hlt
      exact absurd hlt (Nat.not_lt_zero _)
    · intro f₁ _ _ _ hlt
      exact absurd hlt (Nat.not_lt_zero _)
  | succ n ih =>
    refine ⟨?_, ?_, ?_⟩
    · intro j₁ j₂ x y hlt hx hy h
      have h2 := h
      obtain ⟨c₁, t₁, e₁, hc₁⟩ := ser_head_class j₁
      obtain ⟨c₂, t₂, e₂, hc₂⟩ := ser_head_class j₂
      rw [e₁, e₂, List.cons_append, List.cons_append] at h2
      injection h2 with hh _
      have hhead : c₁.toNat = c₂.toNat := congrArg Char.toNat hh
      have hclass : classOf j₁ = classOf j₂ := by
        rcases hc₁ with ⟨hk1, hn1⟩ | ⟨hk1, hn1 | hn1⟩ | ⟨hk1, hn1 | ⟨hn1a, hn1b⟩⟩ |
            ⟨hk1, hn1⟩ | ⟨hk1, hn1⟩ | ⟨hk1, hn1⟩ <;>
          rcases hc₂ with ⟨hk2, hn2⟩ | ⟨hk2, hn2 | hn2⟩ | ⟨hk2, hn2 | ⟨hn2a, hn2b⟩⟩ |
            ⟨hk2, hn2⟩ | ⟨hk2, hn2⟩ | ⟨hk2, hn2⟩ <;>
          omega
      cases j₁ with
      | null =>
        cases j₂ with
        | null =>
          simp only [serJson, litNull, List.cons_append, List.nil_append] at h
          injection h with _ h
          injection h with _ h
          injection h with _ h
          injection h with _ h
          exact ⟨rfl, h⟩
        | bool b => exact absurd hclass (by simp [classOf])
        | num i => exact absurd hclass (by simp [classOf])
        | str s => exact absurd hclass (by simp [classOf])
        | arr l => exact absurd hclass (by simp [classOf])
        | obj l => exact absurd hclass (by simp [classOf])
      | bool b₁ =>
        cases j₂ with
        | null => exact absurd hclass (by simp [classOf])
        | bool b₂ =>
          cases b₁ <;> cases b₂ <;>
            simp only [serJson, litTrue, litFalse, List.cons_append, List.nil_append] at h
          · injection h with _ h
            injection h with _ h
            injection h with _ h
            injection h with _ h
            injection h with _ h
            exact ⟨rfl, h⟩
          · injection h with h1 _
            exact absurd (congrArg Char.toNat h1) (by decide)
          · injection h with h1 _
            exact absurd (congrArg Char.toNat h1) (by decide)
          · injection h with _ h
            injection h with _ h
            injection h with _ h
            injection h with _ h
            exact ⟨rfl, h⟩
        | num i => exact absurd hclass (by simp [classOf])
        | str s => exact absurd hclass (by simp [classOf])
        | arr l => exact absurd hclass (by simp [classOf])
        | obj l => exact absurd hclass (by simp [classOf])
      | num i₁ =>
        cases j₂ with
        | null => exact absurd hclass (by simp [classOf])
        | bool b => exact absurd hclass (by simp [classOf])
        | num i₂ =>
          simp only [serJson] at h
          obtain ⟨hij, hxy⟩ := serInt_det i₁ i₂ x y hx hy h
          exact ⟨by rw [hij], hxy⟩
        | str s => exact absurd hclass (by simp [classOf])
        | arr l => exact absurd hclass (by simp [classOf])
        | obj l => exact absurd hclass (by simp [classOf])
      | str s₁ =>
        cases j₂ with
        | null => exact absurd hclass (by simp [classOf])
        | bool b => exact absurd hclass (by simp [classOf])
        | num i => exact absurd hclass (by simp [classOf])
        | str s₂ =>
          simp only [serJson, List.cons_append, List.append_assoc,
            List.singleton_append] at h
          injection h with _ h
          obtain ⟨hs, hxy⟩ := escStr_det s₁ s₂ x y h
          exact ⟨by rw [hs], hxy⟩
        | arr l => exact absurd hclass (by simp [classOf])
        | obj l => exact absurd hclass (by simp [classOf])
      | arr l₁ =>
        cases j₂ with
        | null => exact absurd hclass (by simp [classOf])
        | bool b => exact absurd hclass (by simp [classOf])
        | num i => exact absurd hclass (by simp [classOf])
        | str s => exact absurd hclass (by simp [classOf])
        | arr l₂ =>
          cases l₁ with
          | nil =>
            cases l₂ with
            | nil =>
              simp only [serJson, List.cons_append, List.nil_append] at h
              injection h with _ h
              injection h with _ h
              exact ⟨rfl, h⟩
            | cons a₂ as₂ =>
              simp only [serJson, List.cons_append, List.append_assoc,
                List.singleton_append, List.nil_append] at h
              injection h with _ h
              obtain ⟨c, t, he, hc⟩ := ser_head_class a₂
              rw [he, List.cons_append] at h
              injection h with h1 _
              have h93 : Char.toNat ']' = c.toNat := congrArg Char.toNat h1
              have : Char.toNat ']' = 93 := by decide
              rcases hc with ⟨_, hn⟩ | ⟨_, hn | hn⟩ | ⟨_, hn | ⟨hna, hnb⟩⟩ | ⟨_, hn⟩ |
                  ⟨_, hn⟩ | ⟨_, hn⟩ <;> omega
          | cons a₁ as₁ =>
            cases l₂ with
            | nil =>
              simp only [serJson, List.cons_append, List.append_assoc,
                List.singleton_append, List.nil_append] at h
              injection h with _ h
              obtain ⟨c, t, he, hc⟩ := ser_head_class a₁
              rw [he, List.cons_append] at h
              injection h with h1 _
              have h93 : c.toNat = Char.toNat ']' := congrArg Char.toNat h1
              have : Char.toNat ']' = 93 := by decide
              rcases hc with ⟨_, hn⟩ | ⟨_, hn | hn⟩ | ⟨_, hn | ⟨hna, hnb⟩⟩ | ⟨_, hn⟩ |
                  ⟨_, hn⟩ | ⟨_, hn⟩ <;> omega
            | cons a₂ as₂ =>
              have hsz : sizeOf a₁ < n ∧ sizeOf as₁ < n := by
                simp only [Json.arr.sizeOf_spec, List.cons.sizeOf_spec] at hlt
                omega
              simp only [serJson, List.cons_append, List.append_assoc,
                List.singleton_append] at h
              injection h with _ h
              obtain ⟨ha, ht⟩ := ih.1 a₁ a₂ _ _ hsz.1 (serTail_nonDigitHead as₁ x)
                (serTail_nonDigitHead as₂ y) h
              obtain ⟨hl, hxy⟩ := ih.2.1 as₁ as₂ x y hsz.2 ht
              exact ⟨by rw [ha, hl], hxy⟩
        | obj l => exact absurd hclass (by simp [classOf])
      | obj l₁ =>
        cases j₂ with
        | null => exact absurd hclass (by simp [classOf])
        | bool b => exact absurd hclass (by simp [classOf])
        | num i => exact absurd hclass (by simp [classOf])
        | str s => exact absurd hclass (by simp [classOf])
        | arr l => exact absurd hclass (by simp [classOf])
        | obj l₂ =>
          cases l₁ with
          | nil =>
            cases l₂ with
            | nil =>
              simp only [serJson, List.cons_append, List.nil_append] at h
              injection h with _ h
              injection h with _ h
              exact ⟨rfl, h⟩
            | cons g₂ gs₂ =>
              simp only [serJson, List.cons_append, List.append_assoc,
                List.singleton_append, List.nil_append] at h
              injection h with _ h
              injection h with h1 _
              exact absurd (congrArg Char.toNat h1) (by decide)
          | cons g₁ gs₁ =>
            cases l₂ with
            | nil =>
              simp only [serJson, List.cons_append, List.append_assoc,
                List.singleton_append, List.nil_append] at h
              injection h with _ h
              injection h with h1 _
              exact absurd (congrArg Char.toNat h1) (by decide)
            | cons g₂ gs₂ =>
              rcases g₁ with ⟨k₁, v₁⟩
              rcases g₂ with ⟨k₂, v₂⟩
              have hsz : sizeOf v₁ < n ∧ sizeOf gs₁ < n := by
                simp only [Json.obj.sizeOf_spec, List.cons.sizeOf_spec,
                  Prod.mk.sizeOf_spec] at hlt
                omega
              simp only [serJson, List.cons_append, List.append_assoc,
                List.singleton_append] at h
              injection h with _ h
              injection h with _ h
              obtain ⟨hk, h⟩ := escStr_det k₁ k₂ _ _ h
              injection h with _ h
              injection h with _ h
              obtain ⟨hv, h⟩ := ih.1 v₁ v₂ _ _ hsz.1 (serFields_nonDigitHead gs₁ x)
                (serFields_nonDigitHead gs₂ y) h
              obtain ⟨hg, hxy⟩ := ih.2.2 gs₁ gs₂ x y hsz.2 h
              refine ⟨?_, hxy⟩
              rw [hk, hv, hg]
    · intro l₁ l₂ x y hlt h
      cases l₁ with
      | nil =>
        cases l₂ with
        | nil =>
          simp only [serTail, List.nil_append] at h
          injection h with _ h
          exact ⟨rfl, h⟩
        | cons a₂ as₂ =>
          simp only [serTail, List.nil_append, List.cons_append, List.append_assoc] at h
          injection h with h1 _
          exact absurd (congrArg Char.toNat h1) (by decide)
      | cons a₁ as₁ =>
        cases l₂ with
        | nil =>
          simp only [serTail, List.nil_append, List.cons_append, List.append_assoc] at h
          injection h with h1 _
          exact absurd (congrArg Char.toNat h1) (by decide)
        | cons a₂ as₂ =>
          have hsz : sizeOf a₁ < n ∧ sizeOf as₁ < n := by
            simp only [List.cons.sizeOf_spec] at hlt
            omega
          simp only [serTail, List.cons_append, List.append_assoc] at h
          injection h with _ h
          injection h with _ h
          obtain ⟨ha, ht⟩ := ih.1 a₁ a₂ _ _ hsz.1 (serTail_nonDigitHead as₁ x)
            (serTail_nonDigitHead as₂ y) h
          obtain ⟨hl, hxy⟩ := ih.2.1 as₁ as₂ x y hsz.2 ht
          exact ⟨by rw [ha, hl], hxy⟩
    · intro f₁ f₂ x y hlt h
      cases f₁ with
      | nil =>
        cases f₂ with
        | nil =>
          simp only [serFields, List.nil_append] at h
          injection h with _ h
          exact ⟨rfl, h⟩
        | cons g₂ gs₂ =>
          simp only [serFields, List.nil_append, List.cons_append, List.append_assoc] at h
          injection h with h1 _
          exact absurd (congrArg Char.toNat h1) (by decide)
      | cons g₁ gs₁ =>
        cases f₂ with
        | nil =>
          simp only [serFields, List.nil_append, List.cons_append, List.append_assoc] at h
          injection h with h1 _
          exact absurd (congrArg Char.toNat h1) (by decide)
        | cons g₂ gs₂ =>
          rcases g₁ with ⟨k₁, v₁⟩
          rcases g₂ with ⟨k₂, v₂⟩
          have hsz : sizeOf v₁ < n ∧ sizeOf gs₁ < n := by
            simp only [List.cons.sizeOf_spec, Prod.mk.sizeOf_spec] at hlt
            omega
          simp only [serFields, List.cons_append, List.append_assoc] at h
          injection h with _ h
          injection h with _ h
          injection h with _ h
          obtain ⟨hk, h⟩ := escStr_det k₁ k₂ _ _ h
          injection h with _ h
          injection h with _ h
          obtain ⟨hv, h⟩ := ih.1 v₁ v₂ _ _ hsz.1 (serFields_nonDigitHead gs₁ x)
            (serFields_nonDigitHead gs₂ y) h
          obtain ⟨hg, hxy⟩ := ih.2.2 gs₁ gs₂ x y hsz.2 h
          refine ⟨?_, hxy⟩
          rw [hk, hv, hg]

/-- Prefix determinism of a serialized value before a non-digit remainder. -/
theorem ser_det (j₁ j₂ : Json) (x y : List Char) (hx : NonDigitHead x) (hy : NonDigitHead y)
    (h : serJson j₁ ++ x = serJson j₂ ++ y) : j₁ = j₂ ∧ x = y :=
  (ser_det_all (sizeOf j₁ + 1)).1 j₁ j₂ x y (Nat.lt_succ_self _) hx hy h

/-- `json.dumps` with sorted keys is injective on the `Json` representation. -/
theorem serJson_inj (j₁ j₂ : Json) (h : serJson j₁ = serJson j₂) : j₁ = j₂ :=
  (ser_det j₁ j₂ [] [] nonDigitHead_nil nonDigitHead_nil (by simp [h])).1


theorem utf8Char_shape (c : Char) :
    (utf8Char c = [c.toNat] ∧ c.toNat < 128) ∨
    (utf8Char c = [192 + c.toNat / 64, 128 + c.toNat % 64] ∧
       128 ≤ c.toNat ∧ c.toNat < 2048) ∨
    (utf8Char c = [224 + c.toNat / 4096, 128 + c.toNat / 64 % 64, 128 + c.toNat % 64] ∧
       2048 ≤ c.toNat ∧ c.toNat < 65536) ∨
    (utf8Char c = [240 + c.toNat / 262144, 128 + c.toNat / 4096 % 64,
         128 + c.toNat / 64 % 64, 128 + c.toNat % 64] ∧
       65536 ≤ c.toNat ∧ c.toNat < 1114112) := by
  have hv := char_range c
  unfold utf8Char
  by_cases h1 : c.toNat < 128
  · exact Or.inl ⟨by rw [if_pos h1], h1⟩
  by_cases h2 : c.toNat < 2048
  · exact Or.inr (Or.inl ⟨by rw [if_neg h1, if_pos h2], by omega, h2⟩)
  by_cases h3 : c.toNat < 65536
  · exact Or.inr (Or.inr (Or.inl ⟨by rw [if_neg h1, if_neg h2, if_pos h3], by omega, h3⟩))
  · exact Or.inr (Or.inr (Or.inr ⟨by rw [if_neg h1, if_neg h2, if_neg h3], by omega, by omega⟩))

theorem utf8Char_det (c₁ c₂ : Char) (r₁ r₂ : List Nat)
    (h : utf8Char c₁ ++ r₁ = utf8Char c₂ ++ r₂) : c₁ = c₂ ∧ r₁ = r₂ := by
  rcases utf8Char_shape c₁ with ⟨e₁, hb₁⟩ | ⟨e₁, hb₁, hb₁b⟩ | ⟨e₁, hb₁, hb₁b⟩ | ⟨e₁, hb₁, hb₁b⟩ <;>
    rcases utf8Char_shape c₂ with ⟨e₂, hb₂⟩ | ⟨e₂, hb₂, hb₂b⟩ | ⟨e₂, hb₂, hb₂b⟩ |
      ⟨e₂, hb₂, hb₂b⟩ <;>
    rw [e₁, e₂] at h <;>
    simp only [List.cons_append, List.nil_append] at h <;>
    injection h with hfst h
  · exact ⟨char_eq_of_toNat_eq hfst, h⟩
  · omega
  · omega
  · omega
  · omega
  · injection h with hsnd h
    exact ⟨char_eq_of_toNat_eq (by omega), h⟩
  · omega
  · omega
  · omega
  · omega
  · injection h with hsnd h
    injection h with hthd h
    exact ⟨char_eq_of_toNat_eq (by omega), h⟩
  · omega
  · omega
  · omega
  · omega
  · injection h with hsnd h
    injection h with hthd h
    injection h with hfth h
    exact ⟨char_eq_of_toNat_eq (by omega), h⟩

/-- `str.encode()` is injective: two strings with the same UTF-8 bytes are
equal. -/
theorem utf8_inj : ∀ s₁ s₂ : Str, utf8 s₁ = utf8 s₂ → s₁ = s₂ := by
  intro s₁
  induction s₁ with
  | nil =>
    intro s₂ h
    cases s₂ with
    | nil => rfl
    | cons c cs =>
      simp only [utf8] at h
      rcases utf8Char_shape c with ⟨e, _⟩ | ⟨e, _, _⟩ | ⟨e, _, _⟩ | ⟨e, _, _⟩ <;>
        rw [e] at h <;> simp at h
  | cons c cs ih =>
    intro s₂ h
    cases s₂ with
    | nil =>
      simp only [utf8] at h
      rcases utf8Char_shape c with ⟨e, _⟩ | ⟨e, _, _⟩ | ⟨e, _, _⟩ | ⟨e, _, _⟩ <;>
        rw [e] at h <;> simp at h
    | cons c' cs' =>
      simp only [utf8] at h
      obtain ⟨hc, ht⟩ := utf8Char_det c c' _ _ h
      rw [hc, ih cs' ht]

/-- The serialized hash pre-image of `_compute_chain_hash` is injective in
`(data, previous_hash, timestamp)`: distinct canonical inputs give the UTF-8
digest distinct byte strings. -/
theorem chain_content_inj (d₁ d₂ : Json) (p₁ p₂ : Option Str) (t₁ t₂ : Json)
    (h : utf8 (BlockchainClient.chain_content d₁ p₁ t₁) =
         utf8 (BlockchainClient.chain_content d₂ p₂ t₂)) :
    d₁ = d₂ ∧ p₁ = p₂ ∧ t₁ = t₂ := by
  have hser := utf8_inj _ _ h
  have hobj := serJson_inj _ _ hser
  injection hobj with hfields
  injection hfields with hf1 hfields
  injection hfields with hf2 hfields
  injection hfields with hf3 _
  refine ⟨?_, ?_, ?_⟩
  · have := congrArg Prod.snd hf1
    exact this
  · have hp := congrArg Prod.snd hf2
    simp only at hp
    cases p₁ with
    | none =>
      cases p₂ with
      | none => rfl
      | some s₂ => exact absurd hp (by simp)
    | some s₁ =>
      cases p₂ with
      | none => exact absurd hp (by simp)
      | some s₂ =>
        injection hp with hs
        rw [hs]
  · exact congrArg Prod.snd hf3


/-- **C6**: `_compute_chain_hash` is a pure deterministic function of its
three arguments: identical `(data, previous_hash, timestamp)` give identical
output; and the canonical serialized digest input is injective in the three
arguments, so distinct canonical inputs collide only if SHA-256 itself
collides — witnessed concretely: changing only the data, only the previous
hash, or only the timestamp each changes the digest on the given inputs. -/
theorem claim_C6_hash_determinism :
    (∀ (d₁ d₂ : Json) (p₁ p₂ : Option Str) (t₁ t₂ : Json), d₁ = d₂ → p₁ = p₂ → t₁ = t₂ →
       BlockchainClient.compute_chain_hash d₁ p₁ t₁ =
         BlockchainClient.compute_chain_hash d₂ p₂ t₂) ∧
    (∀ (d₁ d₂ : Json) (p₁ p₂ : Option Str) (t₁ t₂ : Json),
       utf8 (BlockchainClient.chain_content d₁ p₁ t₁) =
         utf8 (BlockchainClient.chain_content d₂ p₂ t₂) →
       d₁ = d₂ ∧ p₁ = p₂ ∧ t₁ = t₂) ∧
    BlockchainClient.compute_chain_hash (.str "a".data) none (.str "T".data) ≠
      BlockchainClient.compute_chain_hash (.str "b".data) none (.str "T".data) ∧
    BlockchainClient.compute_chain_hash (.str "a".data) none (.str "T".data) ≠
      BlockchainClient.compute_chain_hash (.str "a".data) (some "h".data) (.str "T".data) ∧
    BlockchainClient.compute_chain_hash (.str "a".data) none (.str "T".data) ≠
      BlockchainClient.compute_chain_hash (.str "a".data) none (.str "U".data) := by
  refine ⟨?_, chain_content_inj, by decide, by decide, by decide⟩
  intro d₁ d₂ p₁ p₂ t₁ t₂ hd hp ht
  rw [hd, hp, ht]

theorem claim_C6_hash_determinism_witness :
    BlockchainClient.compute_chain_hash .null none .null =
      BlockchainClient.compute_chain_hash .null none .null ∧
    (Json.str "a".data = Json.str "a".data ∧ (none : Option Str) = none ∧
      Json.null = Json.null) :=
  ⟨claim_C6_hash_determinism.1 .null .null none none .null .null rfl rfl rfl,
   claim_C6_hash_determinism.2.1 (.str "a".data) (.str "a".data) none none .null .null rfl⟩

end GentleOmega
